import Mathlib

/-!
Verification development for the PwnsianCartograph core:
the `BlockColors` color-extraction-with-cache pipeline (`src/blocks.cpp`)
and the `RegionFileWorld` region-coordinate index (`src/AnvilFileWorld.cpp`).

Strings are modelled as `List Char`, machine integers as `Nat`/`Int`
(with explicit `% 2^w` where the source relies on wraparound), and
`SDL_Color` as a quadruple of `Fin 256` (four `Uint8` channels).
-/

/-! ## Basic pixel/color types -/

/-- Truncation of a `Nat` to one byte, the effect of a C++ `Uint8(...)` cast. -/
def u8 (x : Nat) : Fin 256 := ⟨x % 256, Nat.mod_lt x (by decide)⟩

/-- `SDL_Color`: four 8-bit channels r, g, b, a. -/
structure SDL_Color where
  r : Fin 256
  g : Fin 256
  b : Fin 256
  a : Fin 256
deriving DecidableEq, Repr

/-- `SDL_ALPHA_TRANSPARENT` is 0 in SDL. -/
def SDL_ALPHA_TRANSPARENT : Fin 256 := 0

/-- `SDL_ALPHA_OPAQUE` is 255 in SDL. -/
def SDL_ALPHA_OPAQUE : Fin 256 := 255

/-- `SDL_MapRGBA` for `SDL_PIXELFORMAT_RGBA8888`: pack four bytes into a
`Uint32`, r in the highest byte. -/
def encodePixel (c : SDL_Color) : Nat :=
  c.r.val * 16777216 + c.g.val * 65536 + c.b.val * 256 + c.a.val

/-- `SDL_GetRGBA` for `SDL_PIXELFORMAT_RGBA8888`: unpack a `Uint32`
into four bytes (each shift is masked to 8 bits). -/
def decodePixel (p : Nat) : SDL_Color :=
  ⟨u8 (p / 16777216), u8 (p / 65536), u8 (p / 256), u8 p⟩

/-- The double-quote character (code 34). -/
def qChar : Char := Char.ofNat 34

/-- The opening curly bracket character (code 123). -/
def lbChar : Char := Char.ofNat 123

/-- The closing curly bracket character (code 125). -/
def rbChar : Char := Char.ofNat 125

/-- The newline character (code 10). -/
def nlChar : Char := Char.ofNat 10

/-- The tab character (code 9). -/
def tabChar : Char := Char.ofNat 9

/-- The carriage-return character (code 13). -/
def crChar : Char := Char.ofNat 13

/-! ## Characters, C `atoi`, decimal printing -/

/-- C locale `isspace`: space, \t, \n, vertical tab, form feed, \r. -/
def isSpaceChar (c : Char) : Bool := c.toNat = 32 || (9 ≤ c.toNat && c.toNat ≤ 13)

/-- Decimal digit test, as in C `isdigit`. -/
def isDigitChar (c : Char) : Bool := 48 ≤ c.toNat && c.toNat ≤ 57

/-- Numeric value of a digit character. -/
def digitVal (c : Char) : Nat := c.toNat - 48

/-- The character for a decimal digit. -/
def digitChar (n : Nat) : Char := Char.ofNat (48 + n)

/-- Digit-consuming loop of C `atoi`: consume leading digits, accumulate
base-10, stop at the first non-digit. -/
def atoiDigits : List Char → Nat → Nat
  | [], acc => acc
  | c :: cs, acc => if isDigitChar c then atoiDigits cs (acc * 10 + digitVal c) else acc

/-- C `atoi` after whitespace skipping: optional single sign, then digits. -/
def atoiSigned : List Char → Int
  | [] => 0
  | c :: cs =>
    if c = '-' then -(atoiDigits cs 0 : Int)
    else if c = '+' then (atoiDigits cs 0 : Int)
    else if isDigitChar c then (atoiDigits (c :: cs) 0 : Int)
    else 0

/-- C `std::atoi` on a string: skip leading whitespace, optional sign,
consume digits, ignore the rest.  Overflow is not modelled (the inputs in
this program are small). -/
def atoi (s : List Char) : Int := atoiSigned (s.dropWhile isSpaceChar)

/-- Fuel-driven decimal printer (most significant digit first).  The fuel
bounds the number of divisions by 10. -/
def natCharsAux : Nat → Nat → List Char
  | 0, _ => []
  | fuel + 1, n => if n < 10 then [digitChar n] else natCharsAux fuel (n / 10) ++ [digitChar (n % 10)]

/-- Decimal representation of a `Nat`, as produced by C++ stream output. -/
def natChars (n : Nat) : List Char := natCharsAux (n + 1) n

/-- Decimal representation of an `Int`, as produced by C++ stream output
(`operator<<` on `int`): a leading minus sign for negatives. -/
def intChars (z : Int) : List Char :=
  if z < 0 then '-' :: natChars z.natAbs else natChars z.toNat

/-- C++ `std::string::find(c)`: position of the first occurrence of a
character, `none` standing for `npos`. -/
def strFind (c : Char) : List Char → Option Nat
  | [] => none
  | x :: xs => if x = c then some 0 else (strFind c xs).map (· + 1)

/-- C++ `std::string::find(c, start)`: first occurrence at or after
position `start`. -/
def strFindFrom (c : Char) (s : List Char) (start : Nat) : Option Nat :=
  (strFind c (s.drop start)).map (· + start)

/-! ## BlockID (`src/blocks.cpp` lines 29–66) -/

/-- A block identity: numeric id plus sub-type (`meta`), both C++ `int`. -/
structure BlockID where
  id : Int
  meta : Int
deriving DecidableEq, Repr

/-- `BlockID::operator<` — ordering by id, then by meta when ids are equal. -/
def BlockID.lt (x y : BlockID) : Bool :=
  if x.id < y.id then true
  else if x.id = y.id then decide (x.meta < y.meta)
  else false

/-- Key equivalence induced by `operator<` in `std::map`: neither key is
less than the other. -/
def bidEquiv (x y : BlockID) : Bool := !(BlockID.lt x y) && !(BlockID.lt y x)

/-- `BlockID::BlockID(const std::string&)`: split at the first `-` and the
first `.`; `atoi` of the prefix is the id, `atoi` of
`substr(dashpos+1, dotpos)` is the meta (note: the second `substr` argument
is a character count).  When no `-` exists, meta keeps its default 0. -/
def BlockID.ofString (s : List Char) : BlockID :=
  match strFind '-' s with
  | none => { id := atoi s, meta := 0 }
  | some dp =>
      { id := atoi (s.take dp),
        meta := atoi ((s.drop (dp + 1)).take ((strFind '.' s).getD s.length)) }

/-- `BlockID::operator std::string`: `"<id>-<meta>"`, always including
meta. -/
def BlockID.toStringChars (b : BlockID) : List Char :=
  intChars b.id ++ '-' :: intChars b.meta

/-! ## JSON values (json11 collaborator, interface from spec §1/§6) -/

/-- Shape of json11 `Json` values.  Numbers are modelled as integers:
every value this program reads or writes is an integer below 2^53, which
doubles represent exactly. -/
inductive Json where
  | jnull
  | jbool (b : Bool)
  | jnum (n : Int)
  | jstr (s : List Char)
  | jarr (xs : List Json)
  | jobj (kvs : List (List Char × Json))

/-- json11 `is_object()`. -/
def Json.isObj : Json → Bool
  | Json.jobj _ => true
  | _ => false

/-- json11 `number_value()`: 0 for any non-number. -/
def Json.numberValue : Json → Int
  | Json.jnum n => n
  | _ => 0

/-- json11 `operator[](key)` on a value: member lookup on objects, the
static null for non-objects or missing keys. -/
def Json.get (j : Json) (k : List Char) : Json :=
  match j with
  | Json.jobj kvs =>
      match kvs.find? (fun p => decide (p.1 = k)) with
      | some p => p.2
      | none => Json.jnull
  | _ => Json.jnull

/-- The characters of the cache field name `"crc"`. -/
def crcKeyChars : List Char := ['c', 'r', 'c']

/-- The characters of the cache field name `"color"`. -/
def colorKeyChars : List Char := ['c', 'o', 'l', 'o', 'r']

/-! ## The in-memory color map (`std::map<BlockID, std::pair<SDL_Color, unsigned>>`) -/

/-- The `CachedColorMap`: association list ordered by `BlockID::operator<`
(the `std::map` in-order layout). -/
abbrev ColorMap := List (BlockID × (SDL_Color × Nat))

/-- `std::map::operator[]` followed by assignment: ordered insert; on an
equivalent existing key the stored key is kept and the mapped value
replaced. -/
def mapInsert : ColorMap → BlockID → (SDL_Color × Nat) → ColorMap
  | [], k, v => [(k, v)]
  | p :: rest, k, v =>
    if BlockID.lt k p.1 then (k, v) :: p :: rest
    else if BlockID.lt p.1 k then p :: mapInsert rest k v
    else (p.1, v) :: rest

/-- `std::map::find`: the first entry whose key is equivalent (neither
less) under `BlockID::operator<`. -/
def mapLookup (m : ColorMap) (k : BlockID) : Option (SDL_Color × Nat) :=
  (m.find? (fun p => bidEquiv p.1 k)).map Prod.snd

/-! ## BlockColors::load and the cache file (`src/blocks.cpp` 83–141, 204–234) -/

/-- One zip archive entry as `BlockColors::load` consumes it: its name and
its CRC32 (`entry->GetName()`, `entry->GetCrc32()`). -/
structure ZipEntry where
  name : List Char
  crc : Nat
deriving DecidableEq, Repr

/-- `name.substr(0, name.find('.'))` — the entry name with everything from
the first dot on removed. -/
def stripExt (s : List Char) : List Char := s.take ((strFind '.' s).getD s.length)

/-- The cache test of `BlockColors::load` (lines 122–127): the cached
packed pixel is available exactly when `cacheJson[name]` is an object whose
`"crc"` number equals the entry's zip CRC.  The conversion of the `"color"`
double to `Uint32` is modelled by `Int.toNat` (all written values are
non-negative). -/
def hitPixel (cache : Json) (name : List Char) (crc : Nat) : Option Nat :=
  let key := cache.get name
  if key.isObj && decide ((key.get crcKeyChars).numberValue = (crc : Int)) then
    some ((key.get colorKeyChars).numberValue).toNat
  else
    none

/-- One iteration of the entry loop in `BlockColors::load` (lines
109–135): on a cache hit store the decoded cached color, otherwise store
`computeColor(entry)` and raise `hadToRecompute`. -/
def loadStep (compute : ZipEntry → SDL_Color) (cache : Json)
    (st : ColorMap × Bool) (e : ZipEntry) : ColorMap × Bool :=
  let name := stripExt e.name
  match hitPixel cache name e.crc with
  | some p => (mapInsert st.1 (BlockID.ofString name) (decodePixel p, e.crc), st.2)
  | none => (mapInsert st.1 (BlockID.ofString name) (compute e, e.crc), true)

/-- Serialized text of one cache entry, exactly as `saveNewJsonCache`
emits it: `\t"<id>-<meta>":{"crc":<crc>, "color":<pixel>}`. -/
def entryText (b : BlockID) (v : SDL_Color × Nat) : List Char :=
  tabChar :: qChar :: (b.toStringChars ++
    qChar :: ':' :: lbChar :: qChar :: (crcKeyChars ++
      qChar :: ':' :: (natChars v.2 ++
        ',' :: ' ' :: qChar :: (colorKeyChars ++
          qChar :: ':' :: (natChars (encodePixel v.1) ++ [rbChar])))))

/-- Serialized entry sequence of `saveNewJsonCache`: after each entry a
comma unless it is the last, then a newline. -/
def entriesText : ColorMap → List Char
  | [] => []
  | p :: rest =>
      entryText p.1 p.2 ++ (if rest.isEmpty then [] else [',']) ++ nlChar :: entriesText rest

/-- `BlockColors::saveNewJsonCache` (lines 204–234): the full cache file
text `{\n ... }` written for a color map. -/
def saveNewJsonCache (m : ColorMap) : List Char :=
  lbChar :: nlChar :: (entriesText m ++ [rbChar])

/-- Result of `BlockColors::load`: the in-memory map, the
`hadToRecompute` flag, and the cache file text written at the end (`none`
when no write happens). -/
structure LoadResult where
  colors : ColorMap
  dirty : Bool
  written : Option (List Char)
deriving DecidableEq

/-- `BlockColors::load` (lines 105–141) over an already-opened archive
(list of entries) and an already-parsed cache JSON; `compute` stands for
`computeColor` on the entry's decoded image. -/
def BlockColors.load (compute : ZipEntry → SDL_Color) (cache : Json)
    (entries : List ZipEntry) : LoadResult :=
  let res := entries.foldl (loadStep compute cache) ([], false)
  ⟨res.1, res.2, if res.2 then some (saveNewJsonCache res.1) else none⟩

/-- `BlockColors::getBlockColor` (lines 236–243): map lookup by
`BlockID(id, meta)`, transparent `{0,0,0,0}` when the block is unknown. -/
def BlockColors.getBlockColor (m : ColorMap) (id meta : Nat) : SDL_Color :=
  match mapLookup m ⟨(id : Int), (meta : Int)⟩ with
  | some v => v.1
  | none => ⟨0, 0, 0, 0⟩

/-! ## Claim-side (spec-worded) reformulation of the load cache decision -/

/-- The cache decision as the spec words it: a cached pixel is recalled
exactly when an object exists at the entry's key and its stored checksum
equals the current CRC. -/
def cacheDecision (cache : Json) (name : List Char) (crc : Nat) : Option Nat :=
  match cache.get name with
  | Json.jobj kvs =>
      if ((Json.jobj kvs).get crcKeyChars).numberValue = (crc : Int) then
        some (((Json.jobj kvs).get colorKeyChars).numberValue).toNat
      else none
  | _ => none

/-- `BlockColors::load` as the spec describes it: per entry reuse the
cached color iff `cacheDecision` succeeds, recompute otherwise; the dirty
flag is set iff some entry misses; the cache file is rewritten after the
loop exactly when the dirty flag is set. -/
def BlockColors.loadSpec (compute : ZipEntry → SDL_Color) (cache : Json)
    (entries : List ZipEntry) : LoadResult :=
  let colors := entries.foldl
    (fun m e =>
      let name := stripExt e.name
      mapInsert m (BlockID.ofString name)
        ((match cacheDecision cache name e.crc with
          | some p => decodePixel p
          | none => compute e), e.crc)) []
  let dirty := entries.any (fun e => (cacheDecision cache (stripExt e.name) e.crc).isNone)
  ⟨colors, dirty, if dirty then some (saveNewJsonCache colors) else none⟩

/-! ## Cache-file parser (json11 collaborator, modelled from the spec)

Modelled from the spec: json11's `Json::parse` is an external collaborator
("must provide: parse(text) → key/value tree", spec §1), and the cache
file format is fixed by §6 as a top-level object whose values are
`{"crc": <integer>, "color": <integer>}` objects.  The parser below is a
recursive-descent reader of exactly that shape (string keys without escape
sequences, unsigned decimal numbers), with fuel bounding the pair loops. -/

/-- JSON insignificant whitespace characters. -/
def wsChar (c : Char) : Bool :=
  c = ' ' || c = nlChar || c = tabChar || c = crChar

/-- Drop JSON insignificant whitespace. -/
def skipWs (s : List Char) : List Char := s.dropWhile wsChar

/-- Parse an unsigned decimal number; fails on no leading digit. -/
def parseNum (s : List Char) : Option (Nat × List Char) :=
  if (s.takeWhile isDigitChar).isEmpty then none
  else some (atoiDigits (s.takeWhile isDigitChar) 0, s.dropWhile isDigitChar)

/-- Parse a double-quoted key (no escape sequences). -/
def parseKeyStr (s : List Char) : Option (List Char × List Char) :=
  match s with
  | c :: r =>
      if c = qChar then
        match r.dropWhile (fun x => !(x = qChar)) with
        | c2 :: r2 => if c2 = qChar then some (r.takeWhile (fun x => !(x = qChar)), r2) else none
        | [] => none
      else none
  | [] => none

/-- Parse the members of an inner `{"crc":…, "color":…}` object, after its
opening brace: a nonempty comma-separated list of key/number pairs up to
the closing brace. -/
def parseInnerPairs : Nat → List Char → Option (List (List Char × Json) × List Char)
  | 0, _ => none
  | fuel + 1, s =>
    match parseKeyStr (skipWs s) with
    | none => none
    | some (k, r1) =>
      match skipWs r1 with
      | c :: r2 =>
        if c = ':' then
          match parseNum (skipWs r2) with
          | none => none
          | some (n, r3) =>
            match skipWs r3 with
            | c2 :: r4 =>
              if c2 = ',' then
                match parseInnerPairs fuel r4 with
                | some (ps, r5) => some ((k, Json.jnum (n : Int)) :: ps, r5)
                | none => none
              else if c2 = rbChar then some ([(k, Json.jnum (n : Int))], r4)
              else none
            | [] => none
        else none
      | [] => none

/-- Parse an inner object value (`{}` or a nonempty pair list). -/
def parseInnerObj (fuel : Nat) (s : List Char) : Option (Json × List Char) :=
  match skipWs s with
  | c :: r =>
    if c = lbChar then
      match skipWs r with
      | c2 :: r2 =>
        if c2 = rbChar then some (Json.jobj [], r2)
        else
          match parseInnerPairs fuel r with
          | some (ps, rest) => some (Json.jobj ps, rest)
          | none => none
      | [] => none
    else none
  | [] => none

/-- Parse the members of the top-level object: key/inner-object pairs. -/
def parseTopPairs : Nat → List Char → Option (List (List Char × Json) × List Char)
  | 0, _ => none
  | fuel + 1, s =>
    match parseKeyStr (skipWs s) with
    | none => none
    | some (k, r1) =>
      match skipWs r1 with
      | c :: r2 =>
        if c = ':' then
          match parseInnerObj (fuel + 1) r2 with
          | none => none
          | some (v, r3) =>
            match skipWs r3 with
            | c2 :: r4 =>
              if c2 = ',' then
                match parseTopPairs fuel r4 with
                | some (ps, r5) => some ((k, v) :: ps, r5)
                | none => none
              else if c2 = rbChar then some ([(k, v)], r4)
              else none
            | [] => none
        else none
      | [] => none

/-- Parse a whole cache file: a top-level object followed only by
whitespace. -/
def parseCache (s : List Char) : Option Json :=
  match skipWs s with
  | c :: r =>
    if c = lbChar then
      match skipWs r with
      | c2 :: r2 =>
        if c2 = rbChar then
          if (skipWs r2).isEmpty then some (Json.jobj []) else none
        else
          match parseTopPairs s.length r with
          | some (ps, rest) => if (skipWs rest).isEmpty then some (Json.jobj ps) else none
          | none => none
      | [] => none
    else none
  | [] => none

/-- The key/value tree corresponding to a serialized color map: one member
per map entry, in map order. -/
def cacheTree (m : ColorMap) : List (List Char × Json) :=
  m.map (fun p =>
    (p.1.toStringChars,
     Json.jobj [(crcKeyChars, Json.jnum (p.2.2 : Int)),
                (colorKeyChars, Json.jnum (encodePixel p.2.1 : Int))]))

/-! ## computeColor, bucket/mode version (`src/blocks.cpp` 14–22, 148–184) -/

/-- `SimilarColorCompare::operator()` (line 20): componentwise closeness
within tolerance 20 on r, g, b (alpha ignored); `Uint8` values are
promoted to `int` before subtraction. -/
def SimilarColorCompare (x y : SDL_Color) : Bool :=
  decide (((x.r.val : Int) - (y.r.val : Int)).natAbs < 20) &&
  decide (((x.g.val : Int) - (y.g.val : Int)).natAbs < 20) &&
  decide (((x.b.val : Int) - (y.b.val : Int)).natAbs < 20)

/-- Key equivalence of `std::map<SDL_Color, unsigned, SimilarColorCompare>`:
two keys are the same bucket exactly when NEITHER compares less, i.e. when
the colors are NOT similar (the comparator is symmetric). -/
def colorKeyEquiv (x y : SDL_Color) : Bool :=
  !(SimilarColorCompare x y) && !(SimilarColorCompare y x)

/-- `colorCounts[color] += 1` (line 174) on the association-list view of
the map: bump the first key equivalent under the comparator, insert a new
key when none is equivalent.  This models the `std::map` exactly in every
run below, which keeps at most one key (once a single key exists, every
later color is equivalent to it, so the tree never grows and its layout
never matters). -/
def addColorCount : List (SDL_Color × Nat) → SDL_Color → List (SDL_Color × Nat)
  | [], c => [(c, 1)]
  | p :: rest, c =>
      if colorKeyEquiv p.1 c then (p.1, p.2 + 1) :: rest else p :: addColorCount rest c

/-- The pixel loop of the bucket `computeColor` (lines 167–176): step the
flat RGBA byte list four bytes at a time, counting pixels whose alpha is
not `SDL_ALPHA_TRANSPARENT`. -/
def collectColorCounts : List (Fin 256) → List (SDL_Color × Nat) → List (SDL_Color × Nat)
  | r :: g :: b :: a :: rest, acc =>
      collectColorCounts rest (if a.val ≠ 0 then addColorCount acc ⟨r, g, b, a⟩ else acc)
  | _, acc => acc

/-- `std::max_element` with the count comparison of line 180: the first
element attaining the maximal count wins. -/
def maxElemRun (best : SDL_Color × Nat) : List (SDL_Color × Nat) → SDL_Color × Nat
  | [] => best
  | p :: rest => maxElemRun (if best.2 < p.2 then p else best) rest

/-- Bucket/mode `BlockColors::computeColor` (lines 148–184) on the decoded
RGBA bytes.  On an empty count map the source dereferences the end
iterator (undefined); that branch returns `{0,0,0,0}` here and is never
exercised by the theorems below. -/
def computeColorMode (px : List (Fin 256)) : SDL_Color :=
  match collectColorCounts px [] with
  | [] => ⟨0, 0, 0, 0⟩
  | p :: rest => (maxElemRun p rest).1

/-- Bucket insertion as the claim words it: a pixel joins the first bucket
whose first-inserted representative is within componentwise tolerance 20,
otherwise it founds a new bucket. -/
def addColorCountClaim : List (SDL_Color × Nat) → SDL_Color → List (SDL_Color × Nat)
  | [], c => [(c, 1)]
  | p :: rest, c =>
      if SimilarColorCompare p.1 c then (p.1, p.2 + 1) :: rest else p :: addColorCountClaim rest c

/-- The claim's pixel loop: group fully-non-transparent pixels by
similarity to bucket representatives. -/
def collectClaimCounts : List (Fin 256) → List (SDL_Color × Nat) → List (SDL_Color × Nat)
  | r :: g :: b :: a :: rest, acc =>
      collectClaimCounts rest (if a.val ≠ 0 then addColorCountClaim acc ⟨r, g, b, a⟩ else acc)
  | _, acc => acc

/-- The mode/bucket extraction policy exactly as claim C4 states it:
similarity buckets with first-inserted representatives, highest count
wins, first bucket reaching the maximum breaks ties. -/
def bucketModeClaim (px : List (Fin 256)) : SDL_Color :=
  match collectClaimCounts px [] with
  | [] => ⟨0, 0, 0, 0⟩
  | p :: rest => (maxElemRun p rest).1

/-! ## computeColor, average version (`src/blocks.cpp` 410–443) -/

/-- One `unsigned` (32-bit) addition. -/
def addU32 (x y : Nat) : Nat := (x + y) % 4294967296

/-- The accumulation loop of the average `computeColor` (lines 426–437):
sum r, g, b over pixels whose alpha is not transparent, in `unsigned`
arithmetic. -/
def sumNonTransparent : List (Fin 256) → Nat × Nat × Nat → Nat × Nat × Nat
  | r :: g :: b :: a :: rest, s =>
      sumNonTransparent rest
        (if a.val ≠ 0 then (addU32 s.1 r.val, addU32 s.2.1 g.val, addU32 s.2.2 b.val) else s)
  | _, s => s

/-- Average `BlockColors::computeColor` (lines 410–443): divide each
accumulated channel by `nPixels = w * h` — the TOTAL pixel count — and
force alpha opaque.  (`Nat` division yields 0 on `nPixels = 0`, where the
source divides by zero; the theorems below assume `0 < w * h`.) -/
def computeColorAvg (w h : Nat) (px : List (Fin 256)) : SDL_Color :=
  let s := sumNonTransparent px (0, 0, 0)
  let n := w * h
  ⟨u8 (s.1 / n), u8 (s.2.1 / n), u8 (s.2.2 / n), SDL_ALPHA_OPAQUE⟩

/-- The decoded byte list grouped into RGBA pixels (trailing partial
groups dropped, as the 4-byte stride does). -/
def pixelChunks : List (Fin 256) → List SDL_Color
  | r :: g :: b :: a :: rest => ⟨r, g, b, a⟩ :: pixelChunks rest
  | _ => []

/-- The average extraction policy exactly as claim C5 states it: channel
sums over fully-non-transparent pixels divided by the count of SUCH
pixels, alpha forced opaque, guarded to transparent/black when no
non-transparent pixel exists. -/
def avgPolicyClaim (px : List (Fin 256)) : SDL_Color :=
  let cs := (pixelChunks px).filter (fun c => c.a.val ≠ 0)
  if cs.length = 0 then ⟨0, 0, 0, 0⟩
  else
    ⟨u8 ((cs.map (fun c => c.r.val)).sum / cs.length),
     u8 ((cs.map (fun c => c.g.val)).sum / cs.length),
     u8 ((cs.map (fun c => c.b.val)).sum / cs.length),
     SDL_ALPHA_OPAQUE⟩

/-- Channel sum (r) of the non-transparent pixels, for restating the
average loop. -/
def specSumR (px : List (Fin 256)) : Nat :=
  (((pixelChunks px).filter (fun c => c.a.val ≠ 0)).map (fun c => c.r.val)).sum

/-- Channel sum (g) of the non-transparent pixels. -/
def specSumG (px : List (Fin 256)) : Nat :=
  (((pixelChunks px).filter (fun c => c.a.val ≠ 0)).map (fun c => c.g.val)).sum

/-- Channel sum (b) of the non-transparent pixels. -/
def specSumB (px : List (Fin 256)) : Nat :=
  (((pixelChunks px).filter (fun c => c.a.val ≠ 0)).map (fun c => c.b.val)).sum

/-! ## RegionFileWorld (`src/AnvilFileWorld.cpp`) -/

/-- `RegionFileWorld::getSize` accumulator loop (lines 47–54): running
min/max over the region coordinates, all four accumulators starting at
0. -/
def sizeScan (cs : List (Int × Int)) : (Int × Int) × (Int × Int) :=
  cs.foldl
    (fun acc c => ((min acc.1.1 c.1, min acc.1.2 c.2), (max acc.2.1 c.1, max acc.2.2 c.2)))
    ((0, 0), (0, 0))

/-- `RegionFileWorld::getSize` (lines 44–60): `(32*16*(maxx+minx),
32*16*(maxz+minz))` — the sum of max and min, exactly as in the source. -/
def RegionFileWorld.getSize (cs : List (Int × Int)) : Int × Int :=
  (32 * 16 * ((sizeScan cs).2.1 + (sizeScan cs).1.1),
   32 * 16 * ((sizeScan cs).2.2 + (sizeScan cs).1.2))

/-- Fold of `std::min` over a list starting from 0, the minx/minz scan. -/
def minScan (l : List Int) : Int := l.foldl min 0

/-- Fold of `std::max` over a list starting from 0, the maxx/maxz scan. -/
def maxScan (l : List Int) : Int := l.foldl max 0

/-- `RegionFileWorld::parseFilename` (lines 62–84): find three dot
positions; when all exist, x is `atoi(substr(dotpos0+1, dotpos1))` and z is
`atoi(substr(dotpos1+1, dotpos2))` (the second `substr` argument is a
count), and the result is valid; otherwise `(false, (0,0))`.  When the
first find fails, the C++ start positions wrap to 0 and the later finds
fail as well, so nesting the matches is faithful. -/
def RegionFileWorld.parseFilename (s : List Char) : Bool × (Int × Int) :=
  match strFind '.' s with
  | none => (false, (0, 0))
  | some p0 =>
    match strFindFrom '.' s (p0 + 1) with
    | none => (false, (0, 0))
    | some p1 =>
      match strFindFrom '.' s (p1 + 1) with
      | none => (false, (0, 0))
      | some _ =>
          (true, (atoi ((s.drop (p0 + 1)).take p1), atoi ((s.drop (p1 + 1)).take ((strFindFrom '.' s (p1 + 1)).getD 0))))

/-- `parseFilename` as claim C7 words it: succeed exactly when three dots
are found, extracting x from the segment strictly between the first and
second dot and z from the segment strictly between the second and third
dot; prefix and suffix are never inspected. -/
def parseFilenameClaim (s : List Char) : Bool × (Int × Int) :=
  match strFind '.' s with
  | none => (false, (0, 0))
  | some p0 =>
    match strFindFrom '.' s (p0 + 1) with
    | none => (false, (0, 0))
    | some p1 =>
      match strFindFrom '.' s (p1 + 1) with
      | none => (false, (0, 0))
      | some p2 =>
          (true, (atoi ((s.drop (p0 + 1)).take (p1 - (p0 + 1))),
                  atoi ((s.drop (p1 + 1)).take (p2 - (p1 + 1)))))

/-! ## BlockColors::isLoaded (`src/blocks.cpp` 143–146) -/

/-- Execution state of a call to `BlockColors::isLoaded`: either inside
the n-th nested self-call, or returned with a value. -/
inductive IsLoadedState where
  | calling (depth : Nat)
  | returned (b : Bool)
deriving DecidableEq

/-- One step of `BlockColors::isLoaded`: its body is the single statement
`return isLoaded();`, so the only step from a call is entering the next
self-call; no step produces a return value. -/
def BlockColors.isLoadedStep : IsLoadedState → IsLoadedState
  | IsLoadedState.calling d => IsLoadedState.calling (d + 1)
  | IsLoadedState.returned b => IsLoadedState.returned b

/-! ## Helper views of the load loop and concrete inputs -/

/-- The map key an archive entry produces: the `BlockID` parsed from the
entry name with its extension stripped. -/
def entryKey (e : ZipEntry) : BlockID := BlockID.ofString (stripExt e.name)

/-- The value `load` stores for an entry: the recalled (decoded cached)
color on a hit, the computed color on a miss, paired with the current zip
CRC. -/
def entryValue (compute : ZipEntry → SDL_Color) (cache : Json) (e : ZipEntry) :
    SDL_Color × Nat :=
  ((match hitPixel cache (stripExt e.name) e.crc with
    | some p => decodePixel p
    | none => compute e), e.crc)

/-- The color-map part of one `load` loop iteration. -/
def colorStep (compute : ZipEntry → SDL_Color) (cache : Json)
    (m : ColorMap) (e : ZipEntry) : ColorMap :=
  mapInsert m (entryKey e) (entryValue compute cache e)

/-- Whether an entry misses the cache (forcing a recompute). -/
def entryMiss (cache : Json) (e : ZipEntry) : Bool :=
  (hitPixel cache (stripExt e.name) e.crc).isNone

/-- The cache JSON a subsequent load sees: the parse of the file the
previous load wrote, or the unchanged previous cache when nothing was
written. -/
def cacheAfter (cache : Json) (out : LoadResult) : Json :=
  match out.written with
  | some t => (parseCache t).getD Json.jnull
  | none => cache

/-- A stripped entry name is canonical when re-serializing its parsed
`BlockID` reproduces it, i.e. it has the exact `"<id>-<meta>"` form the
cache file uses as key. -/
def canonicalName (s : List Char) : Prop := (BlockID.ofString s).toStringChars = s

/-- The CRC of the last archive entry producing a given `BlockID` (0 when
none does). -/
def lastCrcFor (entries : List ZipEntry) (b : BlockID) : Nat :=
  match entries.reverse.find? (fun e => decide (entryKey e = b)) with
  | some e => e.crc
  | none => 0

/-- Claim C2's per-entry freshness: the map holds the entry's `BlockID`
with the entry's own current CRC. -/
def entryFresh (m : ColorMap) (e : ZipEntry) : Prop :=
  ∃ c, mapLookup m (entryKey e) = some (c, e.crc)

/-- The keys of an in-memory color map. -/
def keysOf (m : ColorMap) : List BlockID := m.map Prod.fst

/-- Strict ordering invariant of the `std::map` layout. -/
def mapOrdered (m : ColorMap) : Prop :=
  m.Pairwise (fun p q => BlockID.lt p.1 q.1 = true)

/-- All characters of a string are decimal digits. -/
def allDigits (s : List Char) : Prop := ∀ c ∈ s, isDigitChar c = true

/-- A constant stand-in for `computeColor` in concrete runs. -/
def constColor1 : ZipEntry → SDL_Color := fun _ => ⟨1, 2, 3, 255⟩

/-- Archive entry `2-0.png` with CRC 1 (first of two entries that strip to
the same `BlockID`). -/
def c2entryA : ZipEntry := ⟨['2', '-', '0', '.', 'p', 'n', 'g'], 1⟩

/-- Archive entry `2-0.txt` with CRC 2 (second entry stripping to the same
`BlockID` as `c2entryA`). -/
def c2entryB : ZipEntry := ⟨['2', '-', '0', '.', 't', 'x', 't'], 2⟩

/-- Archive entry `stone.png` with CRC 7: its stripped name `stone` is not
of the `"<id>-<meta>"` form. -/
def c3entry : ZipEntry := ⟨['s', 't', 'o', 'n', 'e', '.', 'p', 'n', 'g'], 7⟩

/-- Archive entry `2-0.png` with CRC 5 (canonical stripped name). -/
def c3goodEntry : ZipEntry := ⟨['2', '-', '0', '.', 'p', 'n', 'g'], 5⟩

/-- Decoded 3-pixel image: one pure red pixel followed by two pure blue
pixels, all fully opaque. -/
def c4pixels : List (Fin 256) :=
  [255, 0, 0, 255, 0, 0, 255, 255, 0, 0, 255, 255]

/-- Decoded 1×2 image: one opaque white pixel and one fully transparent
pixel. -/
def c5pixels : List (Fin 256) := [255, 255, 255, 255, 7, 7, 7, 0]

/-! ## Basic lemmas: pixels, digits, atoi, decimal printing -/

/-- Unpacking a packed RGBA pixel recovers the packed channels. -/
theorem decodePixel_encodePixel (c : SDL_Color) : decodePixel (encodePixel c) = c := by
  obtain ⟨⟨r, hr⟩, ⟨g, hg⟩, ⟨b, hb⟩, ⟨a, ha⟩⟩ := c
  simp only [decodePixel, encodePixel, u8, SDL_Color.mk.injEq, Fin.mk.injEq]
  refine ⟨?_, ?_, ?_, ?_⟩ <;> omega

theorem char_ne_of_toNat_ne {c d : Char} (h : c.toNat ≠ d.toNat) : c ≠ d :=
  fun e => h (congrArg Char.toNat e)

theorem digit_toNat {c : Char} (h : isDigitChar c = true) : 48 ≤ c.toNat ∧ c.toNat ≤ 57 := by
  simpa [isDigitChar] using h

theorem digit_not_space {c : Char} (h : isDigitChar c = true) : isSpaceChar c = false := by
  have h2 := digit_toNat h
  simp [isSpaceChar]
  omega

theorem digit_ne {c : Char} (h : isDigitChar c = true) (d : Char)
    (hd : d.toNat < 48 ∨ 57 < d.toNat) : c ≠ d := by
  have := digit_toNat h
  exact char_ne_of_toNat_ne (by omega)

theorem not_mem_of_allDigits {u : List Char} (h : allDigits u) {d : Char}
    (hd : d.toNat < 48 ∨ 57 < d.toNat) : d ∉ u := by
  intro hm
  have := digit_toNat (h d hm)
  omega

theorem digitChar_toNat : ∀ n, n < 10 → (digitChar n).toNat = 48 + n := by decide

theorem isDigitChar_digitChar : ∀ n, n < 10 → isDigitChar (digitChar n) = true := by decide

theorem digitVal_digitChar : ∀ n, n < 10 → digitVal (digitChar n) = n := by decide

theorem atoiDigits_append_of_allDigits {u : List Char} (h : allDigits u) :
    ∀ (w : List Char) (acc : Nat), atoiDigits (u ++ w) acc = atoiDigits w (atoiDigits u acc) := by
  induction u with
  | nil => intro w acc; rfl
  | cons c cs ih =>
      intro w acc
      have hc : isDigitChar c = true := h c (List.mem_cons_self c cs)
      have hcs : allDigits cs := fun d hd => h d (List.mem_cons_of_mem c hd)
      simp [atoiDigits, hc, ih hcs]

theorem atoiDigits_append_stop {c : Char} (hc : isDigitChar c = false) :
    ∀ (u r : List Char) (acc : Nat), atoiDigits (u ++ c :: r) acc = atoiDigits u acc := by
  intro u
  induction u with
  | nil => intro r acc; simp [atoiDigits, hc]
  | cons x xs ih =>
      intro r acc
      by_cases hx : isDigitChar x = true
      · simp [atoiDigits, hx, ih]
      · simp at hx
        simp [atoiDigits, hx]

theorem natCharsAux_good : ∀ (fuel n : Nat), n < 10 ^ (fuel + 1) →
    natCharsAux (fuel + 1) n ≠ [] ∧ allDigits (natCharsAux (fuel + 1) n) ∧
      ∀ acc, atoiDigits (natCharsAux (fuel + 1) n) acc =
        acc * 10 ^ (natCharsAux (fuel + 1) n).length + n := by
  intro fuel
  induction fuel with
  | zero =>
      intro n hn
      have h10 : n < 10 := by simpa using hn
      refine ⟨by simp [natCharsAux, h10], ?_, ?_⟩
      · intro c hc
        simp [natCharsAux, h10] at hc
        subst hc
        exact isDigitChar_digitChar n h10
      · intro acc
        simp [natCharsAux, h10, atoiDigits, isDigitChar_digitChar n h10,
          digitVal_digitChar n h10]
  | succ f ih =>
      intro n hn
      by_cases h10 : n < 10
      · refine ⟨by simp [natCharsAux, h10], ?_, ?_⟩
        · intro c hc
          simp [natCharsAux, h10] at hc
          subst hc
          exact isDigitChar_digitChar n h10
        · intro acc
          simp [natCharsAux, h10, atoiDigits, isDigitChar_digitChar n h10,
            digitVal_digitChar n h10]
      · have hdiv : n / 10 < 10 ^ (f + 1) := by
          rw [Nat.div_lt_iff_lt_mul (by norm_num)]
          calc n < 10 ^ (f + 1 + 1) := hn
          _ = 10 ^ (f + 1) * 10 := by ring
        obtain ⟨hne, hdig, hval⟩ := ih (n / 10) hdiv
        have hmod : n % 10 < 10 := Nat.mod_lt n (by norm_num)
        have heq : natCharsAux (f + 1 + 1) n =
            natCharsAux (f + 1) (n / 10) ++ [digitChar (n % 10)] := by
          simp [natCharsAux, h10]
        refine ⟨?_, ?_, ?_⟩
        · rw [heq]; simp
        · intro c hc
          rw [heq] at hc
          rcases List.mem_append.mp hc with h | h
          · exact hdig c h
          · simp at h
            subst h
            exact isDigitChar_digitChar _ hmod
        · intro acc
          rw [heq, atoiDigits_append_of_allDigits hdig, hval acc]
          simp [atoiDigits, isDigitChar_digitChar _ hmod, digitVal_digitChar _ hmod]
          have := Nat.div_add_mod n 10
          ring_nf
          omega

theorem nat_lt_ten_pow (n : Nat) : n < 10 ^ (n + 1) := by
  calc n < 10 ^ n := Nat.lt_pow_self (by norm_num) n
  _ ≤ 10 ^ (n + 1) := Nat.pow_le_pow_right (by norm_num) (Nat.le_succ n)

theorem natChars_ne_nil (n : Nat) : natChars n ≠ [] :=
  (natCharsAux_good n n (nat_lt_ten_pow n)).1

theorem allDigits_natChars (n : Nat) : allDigits (natChars n) :=
  (natCharsAux_good n n (nat_lt_ten_pow n)).2.1

theorem atoiDigits_natChars (n : Nat) (acc : Nat) :
    atoiDigits (natChars n) acc = acc * 10 ^ (natChars n).length + n :=
  (natCharsAux_good n n (nat_lt_ten_pow n)).2.2 acc

theorem atoiDigits_natChars_zero (n : Nat) : atoiDigits (natChars n) 0 = n := by
  simpa using atoiDigits_natChars n 0

theorem natChars_head (n : Nat) :
    ∃ c cs, natChars n = c :: cs ∧ isDigitChar c = true := by
  cases h : natChars n with
  | nil => exact absurd h (natChars_ne_nil n)
  | cons c cs =>
      exact ⟨c, cs, rfl, allDigits_natChars n c (by rw [h]; exact List.mem_cons_self c cs)⟩

/-! ## takeWhile/dropWhile and strFind lemmas -/

theorem dropWhile_cons_false {p : Char → Bool} {c : Char} (h : p c = false) (r : List Char) :
    (c :: r).dropWhile p = c :: r := by
  simp [List.dropWhile, h]

theorem takeWhile_append_sat {p : Char → Bool} {u : List Char}
    (hu : ∀ x ∈ u, p x = true) {c : Char} (hc : p c = false) (v : List Char) :
    (u ++ c :: v).takeWhile p = u := by
  induction u with
  | nil => simp [List.takeWhile, hc]
  | cons x xs ih =>
      have hx := hu x (List.mem_cons_self x xs)
      simp only [List.cons_append, List.takeWhile_cons, hx, if_true]
      rw [ih (fun y hy => hu y (List.mem_cons_of_mem x hy))]

theorem dropWhile_append_sat {p : Char → Bool} {u : List Char}
    (hu : ∀ x ∈ u, p x = true) {c : Char} (hc : p c = false) (v : List Char) :
    (u ++ c :: v).dropWhile p = c :: v := by
  induction u with
  | nil => simp [List.dropWhile, hc]
  | cons x xs ih =>
      have hx := hu x (List.mem_cons_self x xs)
      simp only [List.cons_append, List.dropWhile_cons, hx, if_true]
      exact ih (fun y hy => hu y (List.mem_cons_of_mem x hy))

theorem strFind_some_split {c : Char} :
    ∀ {s : List Char} {k : Nat}, strFind c s = some k →
      ∃ u v, s = u ++ c :: v ∧ u.length = k := by
  intro s
  induction s with
  | nil => intro k h; simp [strFind] at h
  | cons x xs ih =>
      intro k h
      by_cases hx : x = c
      · subst hx
        simp [strFind] at h
        exact ⟨[], xs, rfl, by simpa using h⟩
      · simp [strFind, hx] at h
        obtain ⟨k0, hk0, hk⟩ := h
        obtain ⟨u, v, huv, hlen⟩ := ih hk0
        exact ⟨x :: u, v, by simp [huv], by simp [hlen, hk]⟩

theorem strFind_append_not_mem {c : Char} {u : List Char} (h : c ∉ u) (w : List Char) :
    strFind c (u ++ w) = (strFind c w).map (· + u.length) := by
  induction u with
  | nil => simp
  | cons x xs ih =>
      have hx : ¬(x = c) := fun e => h (by simp [e])
      have hxs : c ∉ xs := fun m => h (List.mem_cons_of_mem x m)
      simp only [List.cons_append, strFind, hx, if_false, List.append_eq, ih hxs]
      cases strFind c w with
      | none => rfl
      | some k =>
          simp only [Option.map_some', Option.some.injEq, List.length_cons]
          omega

theorem strFind_cons_self (c : Char) (r : List Char) : strFind c (c :: r) = some 0 := by
  simp [strFind]

/-! ## atoi lemmas -/

theorem atoiSigned_stop {c : Char} (hd : isDigitChar c = false) (hm : c ≠ '-')
    (hp : c ≠ '+') (r : List Char) : atoiSigned (c :: r) = 0 := by
  simp [atoiSigned, hm, hp, hd]

theorem atoi_append_stop {c : Char} (hd : isDigitChar c = false)
    (hs : isSpaceChar c = false) (hm : c ≠ '-') (hp : c ≠ '+') :
    ∀ (u r : List Char), atoi (u ++ c :: r) = atoi u := by
  intro u
  induction u with
  | nil =>
      intro r
      simp only [List.nil_append, atoi, dropWhile_cons_false hs]
      rw [atoiSigned_stop hd hm hp]
      rfl
  | cons x xs ih =>
      intro r
      by_cases hx : isSpaceChar x = true
      · simp only [atoi, List.cons_append, List.dropWhile_cons, hx, if_true] at *
        exact ih r
      · simp only [Bool.not_eq_true] at hx
        simp only [atoi, List.cons_append, dropWhile_cons_false hx]
        by_cases hxm : x = '-'
        · subst hxm
          simp only [atoiSigned, if_true]
          rw [atoiDigits_append_stop hd]
        · by_cases hxp : x = '+'
          · subst hxp
            simp only [atoiSigned, if_true]
            simp only [show ('+' : Char) = '-' ↔ False by simp, if_false, iff_false] at *
            simp [atoiSigned, atoiDigits_append_stop hd]
          · by_cases hxd : isDigitChar x = true
            · simp only [atoiSigned, hxm, hxp, if_false, hxd, if_true]
              have := atoiDigits_append_stop hd (x :: xs) r 0
              simp only [List.cons_append] at this
              rw [this]
            · simp only [Bool.not_eq_true] at hxd
              rw [atoiSigned_stop hxd hxm hxp, atoiSigned_stop hxd hxm hxp]

theorem atoi_append_dot (u r : List Char) : atoi (u ++ '.' :: r) = atoi u :=
  atoi_append_stop (by decide) (by decide) (by decide) (by decide) u r

theorem atoi_natChars (n : Nat) : atoi (natChars n) = (n : Int) := by
  obtain ⟨c, cs, heq, hdig⟩ := natChars_head n
  rw [heq, atoi, dropWhile_cons_false (digit_not_space hdig)]
  rw [atoiSigned]
  rw [if_neg (digit_ne hdig '-' (by decide)), if_neg (digit_ne hdig '+' (by decide)),
    if_pos hdig]
  rw [← heq, atoiDigits_natChars_zero]

theorem atoi_natChars_append {c : Char} (hd : isDigitChar c = false)
    (hs : isSpaceChar c = false) (hm : c ≠ '-') (hp : c ≠ '+') (n : Nat) (r : List Char) :
    atoi (natChars n ++ c :: r) = (n : Int) := by
  rw [atoi_append_stop hd hs hm hp, atoi_natChars]

theorem natChars_injective {m n : Nat} (h : natChars m = natChars n) : m = n := by
  have := congrArg (fun l => atoiDigits l 0) h
  simpa [atoiDigits_natChars_zero] using this

theorem strFind_eq_none_of_not_mem {c : Char} {s : List Char} (h : c ∉ s) :
    strFind c s = none := by
  induction s with
  | nil => rfl
  | cons x xs ih =>
      have hx : ¬(x = c) := fun e => h (by simp [e])
      simp [strFind, hx, ih (fun m => h (List.mem_cons_of_mem x m))]

theorem cons_split {α : Type} (u : List α) (c : α) (v : List α) :
    u ++ c :: v = (u ++ [c]) ++ v := by simp

theorem intChars_natCast (n : Nat) : intChars (n : Int) = natChars n := by
  simp [intChars]

theorem dash_not_mem_natChars (n : Nat) : '-' ∉ natChars n :=
  not_mem_of_allDigits (allDigits_natChars n) (by decide)

theorem dot_not_mem_natChars (n : Nat) : '.' ∉ natChars n :=
  not_mem_of_allDigits (allDigits_natChars n) (by decide)

theorem strFind_dash_canonical (idn : Nat) (rest : List Char) :
    strFind '-' (natChars idn ++ '-' :: rest) = some (natChars idn).length := by
  rw [strFind_append_not_mem (dash_not_mem_natChars idn), strFind_cons_self]
  simp

theorem strFind_dot_canonical (idn metan : Nat) (ext : List Char) :
    strFind '.' (natChars idn ++ '-' :: (natChars metan ++ '.' :: ext)) =
      some ((natChars idn).length + 1 + (natChars metan).length) := by
  rw [strFind_append_not_mem (dot_not_mem_natChars idn)]
  have h1 : strFind '.' ('-' :: (natChars metan ++ '.' :: ext)) =
      some ((natChars metan).length + 1) := by
    have hd : ¬(('-' : Char) = '.') := by decide
    simp only [strFind, hd, if_false]
    rw [strFind_append_not_mem (dot_not_mem_natChars metan), strFind_cons_self]
    simp
  rw [h1]
  simp only [Option.map_some', Option.some.injEq]
  omega

/-- C8: for every string of the form `<id>-<meta>.<ext>` with numeric id
and meta, parsing it as a `BlockID` and serializing back yields exactly
`<id>-<meta>`; and the serialized form always includes the meta component
(`-0`) even when the source string had no meta at all. -/
theorem c8_blockid_roundtrip (idn metan : Nat) (ext : List Char) :
    (BlockID.ofString (natChars idn ++ '-' :: (natChars metan ++ '.' :: ext))).toStringChars
        = natChars idn ++ '-' :: natChars metan ∧
      ∀ k : Nat, (BlockID.ofString (natChars k)).toStringChars = natChars k ++ '-' :: natChars 0 := by
  constructor
  · have hdash := strFind_dash_canonical idn (natChars metan ++ '.' :: ext)
    have hdot := strFind_dot_canonical idn metan ext
    have htake : (natChars idn ++ '-' :: (natChars metan ++ '.' :: ext)).take (natChars idn).length
        = natChars idn := List.take_left _ _
    have hdrop : (natChars idn ++ '-' :: (natChars metan ++ '.' :: ext)).drop ((natChars idn).length + 1)
        = natChars metan ++ '.' :: ext := by
      rw [cons_split]
      have hlen : (natChars idn ++ ['-']).length = (natChars idn).length + 1 := by simp
      rw [← hlen]
      exact List.drop_left _ _
    have htake2 : (natChars metan ++ '.' :: ext).take
          ((natChars idn).length + 1 + (natChars metan).length)
        = natChars metan ++ '.' :: ext.take (natChars idn).length := by
      rw [show (natChars idn).length + 1 + (natChars metan).length
            = (natChars metan).length + ((natChars idn).length + 1) by omega]
      rw [List.take_append, List.take_succ_cons]
    simp only [BlockID.ofString, hdash, hdot, Option.getD_some, htake, hdrop, htake2]
    rw [atoi_natChars,
      atoi_natChars_append (by decide) (by decide) (by decide) (by decide)]
    simp [BlockID.toStringChars, intChars_natCast]
  · intro k
    have hnone : strFind '-' (natChars k) = none :=
      strFind_eq_none_of_not_mem (dash_not_mem_natChars k)
    simp only [BlockID.ofString, hnone, atoi_natChars]
    simp [BlockID.toStringChars, intChars_natCast]
    rfl

theorem atoi_take_dot {t : List Char} {k : Nat} (h : strFind '.' t = some k)
    (m : Nat) (hm : 1 ≤ m) : atoi (t.take (k + m)) = atoi (t.take k) := by
  obtain ⟨u, v, huv, hlen⟩ := strFind_some_split h
  subst huv
  obtain ⟨m2, rfl⟩ : ∃ m2, m = m2 + 1 := ⟨m - 1, by omega⟩
  rw [← hlen, List.take_append, List.take_succ_cons, List.take_left, atoi_append_dot]

/-- C7: `parseFilename` succeeds exactly when three dot positions are
found, extracting x from the segment between the first and second dot and
z from the segment between the second and third dot, never checking the
literal prefix or suffix (`parseFilenameClaim` is that reading of the
claim); in particular `r.3.-2.mca` parses to `(3, -2)` and `garbage`
is invalid. -/
theorem c7_parse_filename :
    (∀ s : List Char, RegionFileWorld.parseFilename s = parseFilenameClaim s) ∧
      RegionFileWorld.parseFilename ['r', '.', '3', '.', '-', '2', '.', 'm', 'c', 'a']
        = (true, (3, -2)) ∧
      RegionFileWorld.parseFilename ['g', 'a', 'r', 'b', 'a', 'g', 'e'] = (false, (0, 0)) := by
  refine ⟨?_, by decide, by decide⟩
  intro s
  cases h0 : strFind '.' s with
  | none => simp [RegionFileWorld.parseFilename, parseFilenameClaim, h0]
  | some p0 =>
    cases h1 : strFind '.' (s.drop (p0 + 1)) with
    | none =>
        simp [RegionFileWorld.parseFilename, parseFilenameClaim, strFindFrom, h0, h1]
    | some k1 =>
      cases h2 : strFind '.' (s.drop (k1 + (p0 + 1) + 1)) with
      | none =>
          simp [RegionFileWorld.parseFilename, parseFilenameClaim, strFindFrom, h0, h1, h2]
      | some k2 =>
          have hx := atoi_take_dot h1 (p0 + 1) (by omega)
          have hz := atoi_take_dot h2 (k1 + (p0 + 1) + 1) (by omega)
          simp only [RegionFileWorld.parseFilename, parseFilenameClaim, strFindFrom, h0, h1, h2,
            Option.map_some', Option.getD_some, Prod.mk.injEq]
          refine ⟨trivial, ?_, ?_⟩
          · rw [show k1 + (p0 + 1) - (p0 + 1) = k1 by omega] 
            exact hx
          · rw [show k2 + (k1 + (p0 + 1) + 1) - (k1 + (p0 + 1) + 1) = k2 by omega]
            exact hz

theorem sizeScan_proj : ∀ (cs : List (Int × Int)) (a b c d : Int),
    cs.foldl
        (fun acc c2 => ((min acc.1.1 c2.1, min acc.1.2 c2.2), (max acc.2.1 c2.1, max acc.2.2 c2.2)))
        ((a, b), (c, d))
      = (((cs.map Prod.fst).foldl min a, (cs.map Prod.snd).foldl min b),
         ((cs.map Prod.fst).foldl max c, (cs.map Prod.snd).foldl max d)) := by
  intro cs
  induction cs with
  | nil => intro a b c d; rfl
  | cons p rest ih => intro a b c d; simp only [List.foldl_cons, List.map_cons, ih]

/-- C6: `getSize` scans the loaded coordinates for the running min and max
of x and z (each accumulator starting at 0, as in the source) and returns
exactly `(32*16*(maxx+minx), 32*16*(maxz+minz))`; on coordinates
`{(0,0),(2,3)}` this is `(1024, 1536)`, and on `{(-1,0),(1,0)}` the width
is `32*16*(1-1) = 0`. -/
theorem c6_get_size :
    (∀ cs : List (Int × Int), RegionFileWorld.getSize cs
        = (32 * 16 * (maxScan (cs.map Prod.fst) + minScan (cs.map Prod.fst)),
           32 * 16 * (maxScan (cs.map Prod.snd) + minScan (cs.map Prod.snd)))) ∧
      RegionFileWorld.getSize [((0 : Int), (0 : Int)), (2, 3)] = (1024, 1536) ∧
      (RegionFileWorld.getSize [((-1 : Int), (0 : Int)), (1, 0)]).1 = 0 := by
  refine ⟨?_, by decide, by decide⟩
  intro cs
  simp only [RegionFileWorld.getSize, sizeScan, sizeScan_proj, minScan, maxScan]

theorem isLoadedStep_iterate : ∀ (n d : Nat),
    BlockColors.isLoadedStep^[n] (IsLoadedState.calling d) = IsLoadedState.calling (d + n) := by
  intro n
  induction n with
  | zero => intro d; simp
  | succ k ih =>
      intro d
      rw [Function.iterate_succ_apply]
      have hstep : BlockColors.isLoadedStep (IsLoadedState.calling d)
          = IsLoadedState.calling (d + 1) := rfl
      rw [hstep, ih]
      congr 1
      omega

/-- C10: `BlockColors::isLoaded` never returns — its body is the single
unconditional self-call `return isLoaded();`, so after any number of
execution steps the computation is still inside a nested call and never
reaches a returned value. -/
theorem c10_isloaded_diverges (n : Nat) (b : Bool) :
    BlockColors.isLoadedStep^[n] (IsLoadedState.calling 0) ≠ IsLoadedState.returned b := by
  rw [isLoadedStep_iterate n 0]
  exact fun h => IsLoadedState.noConfusion h

/-- C4: on the concrete decoded image `c4pixels` (one red pixel, two blue
pixels) the source `computeColor` returns RED: because `SimilarColorCompare`
is symmetric, the `std::map` key equivalence (`!comp(a,b) && !comp(b,a)`)
holds precisely for DISSIMILAR colors, so the blue pixels are counted into
the red bucket, while the claim's bucket policy (`bucketModeClaim`) puts
the two blue pixels in their own bucket and returns blue. -/
theorem c4_bucket_divergence :
    computeColorMode c4pixels = ⟨255, 0, 0, 255⟩ ∧
      bucketModeClaim c4pixels = ⟨0, 0, 255, 255⟩ ∧
      (⟨255, 0, 0, 255⟩ : SDL_Color) ≠ ⟨0, 0, 255, 255⟩ := by
  refine ⟨by decide, by decide, by decide⟩

/-- C5 counterexample: on the 1×2 image `c5pixels` (one opaque white
pixel, one transparent pixel) the source average `computeColor` divides by
the TOTAL pixel count `w*h = 2` and returns 255/2 = 127 per channel, while
the claim's average policy divides by the count of non-transparent pixels
(1) and returns 255 — so the claim is false at this input. -/
theorem c5_counterexample :
    computeColorAvg 1 2 c5pixels = ⟨127, 127, 127, 255⟩ ∧
      avgPolicyClaim c5pixels = ⟨255, 255, 255, 255⟩ ∧
      computeColorAvg 1 2 c5pixels ≠ avgPolicyClaim c5pixels := by
  refine ⟨by decide, by decide, by decide⟩

theorem sumNT_spec : ∀ (px : List (Fin 256)) (x y z : Nat),
    x < 4294967296 → y < 4294967296 → z < 4294967296 →
    sumNonTransparent px (x, y, z)
      = ((x + specSumR px) % 4294967296, (y + specSumG px) % 4294967296,
         (z + specSumB px) % 4294967296)
  | r :: g :: b :: a :: rest => by
      intro x y z hx hy hz
      by_cases ha : a.val = 0
      · have hrec := sumNT_spec rest x y z hx hy hz
        simp [sumNonTransparent, ha, specSumR, specSumG, specSumB, pixelChunks] at hrec ⊢
        exact hrec
      · have hb1 : addU32 x r.val < 4294967296 := Nat.mod_lt _ (by norm_num)
        have hb2 : addU32 y g.val < 4294967296 := Nat.mod_lt _ (by norm_num)
        have hb3 : addU32 z b.val < 4294967296 := Nat.mod_lt _ (by norm_num)
        have hrec := sumNT_spec rest (addU32 x r.val) (addU32 y g.val) (addU32 z b.val) hb1 hb2 hb3
        simp only [sumNonTransparent, ha, ne_eq, not_false_iff, if_true]
        rw [hrec]
        simp only [specSumR, specSumG, specSumB, pixelChunks, List.filter_cons,
          decide_not, ha, decide_False, Bool.not_false, if_true, List.map_cons, List.sum_cons,
          addU32]
        refine congrArg₂ Prod.mk ?_ (congrArg₂ Prod.mk ?_ ?_) <;> omega
  | [] => by
      intro x y z hx hy hz
      simp [sumNonTransparent, specSumR, specSumG, specSumB, pixelChunks,
        Nat.mod_eq_of_lt hx, Nat.mod_eq_of_lt hy, Nat.mod_eq_of_lt hz]
  | [r] => by
      intro x y z hx hy hz
      simp [sumNonTransparent, specSumR, specSumG, specSumB, pixelChunks,
        Nat.mod_eq_of_lt hx, Nat.mod_eq_of_lt hy, Nat.mod_eq_of_lt hz]
  | [r, g] => by
      intro x y z hx hy hz
      simp [sumNonTransparent, specSumR, specSumG, specSumB, pixelChunks,
        Nat.mod_eq_of_lt hx, Nat.mod_eq_of_lt hy, Nat.mod_eq_of_lt hz]
  | [r, g, b] => by
      intro x y z hx hy hz
      simp [sumNonTransparent, specSumR, specSumG, specSumB, pixelChunks,
        Nat.mod_eq_of_lt hx, Nat.mod_eq_of_lt hy, Nat.mod_eq_of_lt hz]

/-- C5 amended: the average `computeColor` returns, per channel, the
32-bit sum over the fully-non-transparent pixels divided (integer
division) by the TOTAL pixel count `w*h` — not by the count of
non-transparent pixels — with alpha forced opaque; the source has no
division-by-zero guard, so `0 < w*h` is assumed (at `w*h = 0` the source's
behavior is undefined). -/
theorem c5_avg_amended (w h : Nat) (px : List (Fin 256)) (hn : 0 < w * h)
    (hl : px.length = 4 * (w * h)) :
    computeColorAvg w h px =
      ⟨u8 ((specSumR px % 4294967296) / (w * h)),
       u8 ((specSumG px % 4294967296) / (w * h)),
       u8 ((specSumB px % 4294967296) / (w * h)), SDL_ALPHA_OPAQUE⟩ := by
  have hs := sumNT_spec px 0 0 0 (by norm_num) (by norm_num) (by norm_num)
  simp only [Nat.zero_add] at hs
  simp only [computeColorAvg, hs]

/-- Witness for the amended C5 theorem at a concrete 1×1 opaque image. -/
theorem c5_avg_amended_witness :
    0 < 1 * 1 ∧ ([10, 20, 30, 255] : List (Fin 256)).length = 4 * (1 * 1) ∧
      computeColorAvg 1 1 [10, 20, 30, 255] =
        ⟨u8 ((specSumR [10, 20, 30, 255] % 4294967296) / (1 * 1)),
         u8 ((specSumG [10, 20, 30, 255] % 4294967296) / (1 * 1)),
         u8 ((specSumB [10, 20, 30, 255] % 4294967296) / (1 * 1)), SDL_ALPHA_OPAQUE⟩ :=
  ⟨by decide, by decide, c5_avg_amended 1 1 [10, 20, 30, 255] (by decide) (by decide)⟩

/-- C9: `getBlockColor` on any (id, meta) pair whose `BlockID` is absent
from the loaded map returns exactly the transparent sentinel `{0,0,0,0}`;
it is a total map lookup with a defined default, not an error path. -/
theorem c9_unknown_transparent (m : ColorMap) (id meta : Nat)
    (h : mapLookup m ⟨(id : Int), (meta : Int)⟩ = none) :
    BlockColors.getBlockColor m id meta = ⟨0, 0, 0, 0⟩ := by
  simp only [BlockColors.getBlockColor, h]

/-- Witness for C9 on a concrete one-entry map and an absent id. -/
theorem c9_unknown_transparent_witness :
    mapLookup [(⟨9, 9⟩, (⟨1, 2, 3, 4⟩, 5))] ⟨(5 : Nat), (3 : Nat)⟩ = none ∧
      BlockColors.getBlockColor [(⟨9, 9⟩, (⟨1, 2, 3, 4⟩, 5))] 5 3 = ⟨0, 0, 0, 0⟩ :=
  ⟨by decide, c9_unknown_transparent [(⟨9, 9⟩, (⟨1, 2, 3, 4⟩, 5))] 5 3 (by decide)⟩

/-! ## Map and load-loop lemmas -/

theorem BlockID.lt_iff {x y : BlockID} :
    BlockID.lt x y = true ↔ x.id < y.id ∨ (x.id = y.id ∧ x.meta < y.meta) := by
  rcases x with ⟨xi, xm⟩
  rcases y with ⟨yi, ym⟩
  simp only [BlockID.lt]
  split_ifs with h1 h2 <;> simp_all <;> omega

theorem BlockID.lt_total_of_ne {x y : BlockID} (h : x ≠ y) :
    BlockID.lt x y = true ∨ BlockID.lt y x = true := by
  rcases x with ⟨xi, xm⟩
  rcases y with ⟨yi, ym⟩
  rw [BlockID.lt_iff, BlockID.lt_iff]
  dsimp only
  simp only [ne_eq, BlockID.mk.injEq, not_and] at h
  by_cases hi : xi = yi
  · subst hi
    have hm := h rfl
    omega
  · omega

theorem bidEquiv_self (x : BlockID) : bidEquiv x x = true := by
  have hxx : BlockID.lt x x = false := by
    by_contra hc
    simp only [Bool.not_eq_false] at hc
    rw [BlockID.lt_iff] at hc
    omega
  simp [bidEquiv, hxx]

theorem bidEquiv_eq_false {x y : BlockID} (h : x ≠ y) : bidEquiv x y = false := by
  rcases BlockID.lt_total_of_ne h with hl | hl <;> simp [bidEquiv, hl]

theorem eq_of_bidEquiv {x y : BlockID} (h : bidEquiv x y = true) : x = y := by
  by_contra hne
  rw [bidEquiv_eq_false hne] at h
  exact Bool.false_ne_true h

theorem mapLookup_nil (j : BlockID) : mapLookup [] j = none := rfl

theorem mapLookup_cons (x : BlockID × (SDL_Color × Nat)) (xs : ColorMap) (j : BlockID) :
    mapLookup (x :: xs) j = if bidEquiv x.1 j = true then some x.2 else mapLookup xs j := by
  by_cases h : bidEquiv x.1 j = true
  · have hp : (fun p : BlockID × (SDL_Color × Nat) => bidEquiv p.1 j) x = true := h
    simp [mapLookup, List.find?_cons_of_pos _ hp, h]
  · have hp : ¬((fun p : BlockID × (SDL_Color × Nat) => bidEquiv p.1 j) x = true) := h
    simp [mapLookup, List.find?_cons_of_neg _ hp, h]

theorem mapLookup_insert_self (m : ColorMap) (k : BlockID) (v : SDL_Color × Nat) :
    mapLookup (mapInsert m k v) k = some v := by
  induction m with
  | nil => simp [mapInsert, mapLookup_cons, bidEquiv_self]
  | cons p rest ih =>
      by_cases h1 : BlockID.lt k p.1 = true
      · simp [mapInsert, h1, mapLookup_cons, bidEquiv_self]
      · by_cases h2 : BlockID.lt p.1 k = true
        · simp only [Bool.not_eq_true] at h1
          have hne : bidEquiv p.1 k = false := by simp [bidEquiv, h2]
          simp [mapInsert, h1, h2, mapLookup_cons, hne, ih]
        · simp only [Bool.not_eq_true] at h1 h2
          have heq : bidEquiv p.1 k = true := by simp [bidEquiv, h1, h2]
          simp [mapInsert, h1, h2, mapLookup_cons, heq]

theorem mapLookup_insert_ne (m : ColorMap) {k j : BlockID} (v : SDL_Color × Nat)
    (hne : j ≠ k) : mapLookup (mapInsert m k v) j = mapLookup m j := by
  have hkj : bidEquiv k j = false := bidEquiv_eq_false (fun e => hne e.symm)
  induction m with
  | nil => simp [mapInsert, mapLookup_cons, hkj, mapLookup_nil]
  | cons p rest ih =>
      by_cases h1 : BlockID.lt k p.1 = true
      · simp [mapInsert, h1, mapLookup_cons, hkj]
      · by_cases h2 : BlockID.lt p.1 k = true
        · simp only [Bool.not_eq_true] at h1
          simp [mapInsert, h1, h2, mapLookup_cons, ih]
        · simp only [Bool.not_eq_true] at h1 h2
          have heq : bidEquiv p.1 k = true := by simp [bidEquiv, h1, h2]
          have hpk : p.1 = k := eq_of_bidEquiv heq
          have hins : mapInsert (p :: rest) k v = (p.1, v) :: rest := by
            simp [mapInsert, h1, h2]
          rw [hins, mapLookup_cons, mapLookup_cons]
          have hpj : bidEquiv p.1 j = false := by rw [hpk]; exact hkj
          simp [hpj]

theorem loadStep_eq (compute : ZipEntry → SDL_Color) (cache : Json)
    (st : ColorMap × Bool) (e : ZipEntry) :
    loadStep compute cache st e
      = (colorStep compute cache st.1 e, st.2 || entryMiss cache e) := by
  rcases st with ⟨m, d⟩
  cases h : hitPixel cache (stripExt e.name) e.crc <;>
    simp [loadStep, colorStep, entryValue, entryMiss, entryKey, h]

theorem load_fold (compute : ZipEntry → SDL_Color) (cache : Json) :
    ∀ (l : List ZipEntry) (m : ColorMap) (d : Bool),
      l.foldl (loadStep compute cache) (m, d)
        = (l.foldl (colorStep compute cache) m, d || l.any (entryMiss cache)) := by
  intro l
  induction l with
  | nil => intro m d; simp
  | cons e rest ih =>
      intro m d
      rw [List.foldl_cons, loadStep_eq, ih]
      simp [List.any_cons, Bool.or_assoc]

theorem load_parts (compute : ZipEntry → SDL_Color) (cache : Json) (entries : List ZipEntry) :
    (BlockColors.load compute cache entries).colors
        = entries.foldl (colorStep compute cache) [] ∧
      (BlockColors.load compute cache entries).dirty = entries.any (entryMiss cache) ∧
      (BlockColors.load compute cache entries).written
        = (if entries.any (entryMiss cache)
           then some (saveNewJsonCache (entries.foldl (colorStep compute cache) []))
           else none) := by
  simp [BlockColors.load, load_fold]

theorem mapLookup_fold (compute : ZipEntry → SDL_Color) (cache : Json) :
    ∀ (l : List ZipEntry) (m0 : ColorMap) (j : BlockID),
      mapLookup (l.foldl (colorStep compute cache) m0) j
        = (match l.reverse.find? (fun e => decide (entryKey e = j)) with
           | some e => some (entryValue compute cache e)
           | none => mapLookup m0 j) := by
  intro l
  induction l with
  | nil => intro m0 j; simp
  | cons e rest ih =>
      intro m0 j
      rw [List.foldl_cons, ih]
      rw [List.reverse_cons, List.find?_append]
      cases hfind : rest.reverse.find? (fun e2 => decide (entryKey e2 = j)) with
      | some x => simp
      | none =>
          simp only [Option.none_or]
          by_cases hj : entryKey e = j
          · have : List.find? (fun e2 => decide (entryKey e2 = j)) [e] = some e := by
              simp [List.find?, hj]
            rw [this]
            subst hj
            simp [colorStep, mapLookup_insert_self]
          · have : List.find? (fun e2 => decide (entryKey e2 = j)) [e] = none := by
              simp [List.find?, hj]
            rw [this]
            simp [colorStep, mapLookup_insert_ne _ _ (fun a => hj a.symm)]

theorem BlockID.lt_trans {a b c : BlockID} (h1 : BlockID.lt a b = true)
    (h2 : BlockID.lt b c = true) : BlockID.lt a c = true := by
  rw [BlockID.lt_iff] at h1 h2 ⊢
  omega

theorem BlockID.ne_of_lt {a b : BlockID} (h : BlockID.lt a b = true) : a ≠ b := by
  rw [BlockID.lt_iff] at h
  intro e
  subst e
  omega

theorem mem_keysOf_of_mem {m : ColorMap} {q : BlockID × (SDL_Color × Nat)} (h : q ∈ m) :
    q.1 ∈ keysOf m := List.mem_map_of_mem Prod.fst h

theorem keys_mapInsert_subset : ∀ (m : ColorMap) (k : BlockID) (v : SDL_Color × Nat)
    (q : BlockID × (SDL_Color × Nat)), q ∈ mapInsert m k v → q.1 = k ∨ q.1 ∈ keysOf m := by
  intro m k v
  induction m with
  | nil =>
      intro q hq
      simp [mapInsert] at hq
      subst hq
      exact Or.inl rfl
  | cons p rest ih =>
      intro q hq
      by_cases h1 : BlockID.lt k p.1 = true
      · simp [mapInsert, h1] at hq
        cases hq with
        | inl h => exact Or.inl (by rw [h])
        | inr h =>
            cases h with
            | inl h3 => exact Or.inr (by rw [h3]; exact mem_keysOf_of_mem (List.mem_cons_self p rest))
            | inr h3 => exact Or.inr (mem_keysOf_of_mem (List.mem_cons_of_mem p h3))
      · by_cases h2 : BlockID.lt p.1 k = true
        · simp [mapInsert, h1, h2] at hq
          cases hq with
          | inl h => exact Or.inr (by rw [h]; exact mem_keysOf_of_mem (List.mem_cons_self p rest))
          | inr h =>
              cases ih q h with
              | inl h3 => exact Or.inl h3
              | inr h3 =>
                  refine Or.inr ?_
                  simp only [keysOf, List.map_cons, List.mem_cons]
                  exact Or.inr (by simpa [keysOf] using h3)
        · simp [mapInsert, h1, h2] at hq
          cases hq with
          | inl h =>
              refine Or.inr ?_
              rw [h]
              simpa using mem_keysOf_of_mem (List.mem_cons_self p rest)
          | inr h => exact Or.inr (mem_keysOf_of_mem (List.mem_cons_of_mem p h))

theorem mapInsert_ordered : ∀ {m : ColorMap} (k : BlockID) (v : SDL_Color × Nat),
    mapOrdered m → mapOrdered (mapInsert m k v) := by
  intro m
  induction m with
  | nil => intro k v _; simp [mapInsert, mapOrdered]
  | cons p rest ih =>
      intro k v h
      simp only [mapOrdered, List.pairwise_cons] at h
      obtain ⟨h1, h2⟩ := h
      by_cases hb1 : BlockID.lt k p.1 = true
      · have hgoal : mapOrdered ((k, v) :: p :: rest) := by
          simp only [mapOrdered, List.pairwise_cons]
          refine ⟨?_, h1, h2⟩
          intro q hq
          rcases List.mem_cons.mp hq with h | h
          · rw [h]; exact hb1
          · exact BlockID.lt_trans hb1 (h1 q h)
        simpa [mapInsert, hb1] using hgoal
      · by_cases hb2 : BlockID.lt p.1 k = true
        · have hgoal : mapOrdered (p :: mapInsert rest k v) := by
            simp only [mapOrdered, List.pairwise_cons]
            constructor
            · intro q hq
              rcases keys_mapInsert_subset rest k v q hq with h | h
              · rw [h]; exact hb2
              · obtain ⟨r, hr, hr2⟩ := List.mem_map.mp h
                rw [← hr2]
                exact h1 r hr
            · have := ih k v (by simpa [mapOrdered] using h2)
              simpa [mapOrdered] using this
          simpa [mapInsert, hb1, hb2] using hgoal
        · have hgoal : mapOrdered ((p.1, v) :: rest) := by
            simp only [mapOrdered, List.pairwise_cons]
            exact ⟨h1, h2⟩
          simpa [mapInsert, hb1, hb2] using hgoal

theorem fold_ordered (compute : ZipEntry → SDL_Color) (cache : Json) :
    ∀ (l : List ZipEntry) (m0 : ColorMap), mapOrdered m0 →
      mapOrdered (l.foldl (colorStep compute cache) m0) := by
  intro l
  induction l with
  | nil => intro m0 h; exact h
  | cons e rest ih =>
      intro m0 h
      rw [List.foldl_cons]
      exact ih _ (mapInsert_ordered _ _ h)

theorem keysOf_nodup {m : ColorMap} (h : mapOrdered m) : (keysOf m).Nodup := by
  simp only [keysOf, List.Nodup, List.pairwise_map]
  simp only [mapOrdered] at h
  exact h.imp (fun hlt => BlockID.ne_of_lt hlt)

/-- C2 amended: after `load`, the in-memory map has pairwise-distinct keys
(exactly one entry per `BlockID`), and every archive entry's `BlockID` is
present, holding the CRC of the LAST archive entry that derives that
`BlockID` (entries deriving the same `BlockID` overwrite earlier ones, so
an earlier duplicate's own CRC is not retained). -/
theorem c2_every_entry_present (compute : ZipEntry → SDL_Color) (cache : Json)
    (entries : List ZipEntry) (e : ZipEntry) (he : e ∈ entries) :
    (keysOf (BlockColors.load compute cache entries).colors).Nodup ∧
      ∃ c, mapLookup (BlockColors.load compute cache entries).colors (entryKey e)
        = some (c, lastCrcFor entries (entryKey e)) := by
  obtain ⟨hc, hd, hw⟩ := load_parts compute cache entries
  constructor
  · rw [hc]
    exact keysOf_nodup (fold_ordered compute cache entries [] (by simp [mapOrdered]))
  · rw [hc, mapLookup_fold]
    have hsome : (entries.reverse.find? (fun e2 => decide (entryKey e2 = entryKey e))).isSome := by
      rw [List.find?_isSome]
      exact ⟨e, List.mem_reverse.mpr he, by simp⟩
    cases hfind : entries.reverse.find? (fun e2 => decide (entryKey e2 = entryKey e)) with
    | none => rw [hfind] at hsome; simp at hsome
    | some x =>
        refine ⟨(entryValue compute cache x).1, ?_⟩
        simp only [hfind, lastCrcFor]
        rfl

/-- Witness for the amended C2 theorem on a concrete single-entry archive. -/
theorem c2_every_entry_present_witness :
    c3goodEntry ∈ [c3goodEntry] ∧
      ((keysOf (BlockColors.load constColor1 Json.jnull [c3goodEntry]).colors).Nodup ∧
        ∃ c, mapLookup (BlockColors.load constColor1 Json.jnull [c3goodEntry]).colors
            (entryKey c3goodEntry)
          = some (c, lastCrcFor [c3goodEntry] (entryKey c3goodEntry))) :=
  ⟨by decide, c2_every_entry_present constColor1 Json.jnull [c3goodEntry] c3goodEntry
    (by decide)⟩

/-- C2 counterexample: with the two archive entries `2-0.png` (CRC 1) and
`2-0.txt` (CRC 2), which strip to the same `BlockID` (2,0), the loaded map
keeps only the second CRC, so the first entry is left with a stale
checksum — the claim's "no archive entry is left ... with a stale checksum"
is false at this input. -/
theorem c2_counterexample :
    ¬ entryFresh (BlockColors.load constColor1 Json.jnull [c2entryA, c2entryB]).colors
        c2entryA := by
  intro hf
  obtain ⟨c, hc⟩ := hf
  have hl : mapLookup (BlockColors.load constColor1 Json.jnull [c2entryA, c2entryB]).colors
      (entryKey c2entryA) = some (⟨1, 2, 3, 255⟩, 2) := by decide
  rw [hl] at hc
  have h2 := Option.some.inj hc
  have h3 := congrArg Prod.snd h2
  simp [c2entryA] at h3

theorem hitPixel_eq_cacheDecision (cache : Json) (name : List Char) (crc : Nat) :
    hitPixel cache name crc = cacheDecision cache name crc := by
  cases h : cache.get name <;>
    simp [hitPixel, cacheDecision, h, Json.isObj]

/-- C1: `load` behaves exactly as the spec-worded `loadSpec`: for every
archive entry the cached color is reused if and only if the cache JSON
holds an object under the entry's key whose stored checksum equals the
entry's current zip CRC (`cacheDecision`); in every other case the color
is recomputed and the dirty flag raised, and the cache file is rewritten
after the loop exactly when some entry missed. -/
theorem c1_load_matches_spec (compute : ZipEntry → SDL_Color) (cache : Json)
    (entries : List ZipEntry) :
    BlockColors.load compute cache entries = BlockColors.loadSpec compute cache entries := by
  have hfun : colorStep compute cache = fun (m : ColorMap) (e : ZipEntry) =>
      mapInsert m (BlockID.ofString (stripExt e.name))
        ((match cacheDecision cache (stripExt e.name) e.crc with
          | some p => decodePixel p
          | none => compute e), e.crc) := by
    funext m e
    simp [colorStep, entryKey, entryValue, hitPixel_eq_cacheDecision]
  have hmiss : entryMiss cache = fun e =>
      (cacheDecision cache (stripExt e.name) e.crc).isNone := by
    funext e
    simp [entryMiss, hitPixel_eq_cacheDecision]
  simp only [BlockColors.load, BlockColors.loadSpec, load_fold, Bool.false_or, hfun, hmiss]

/-! ## Cache-file parser lemmas -/

theorem bidEquiv_eq_decide (x y : BlockID) : bidEquiv x y = decide (x = y) := by
  by_cases h : x = y
  · subst h; simp [bidEquiv_self]
  · simp [bidEquiv_eq_false h, h]

theorem find?_congr_mem {α : Type} {p q : α → Bool} :
    ∀ (l : List α), (∀ x ∈ l, p x = q x) → l.find? p = l.find? q := by
  intro l
  induction l with
  | nil => intro _; rfl
  | cons a as ih =>
      intro h
      have ha := h a (List.mem_cons_self a as)
      by_cases hp : p a = true
      · rw [List.find?_cons_of_pos _ hp, List.find?_cons_of_pos _ (ha ▸ hp)]
      · have hq : ¬(q a = true) := by rw [← ha]; exact hp
        rw [List.find?_cons_of_neg _ hp, List.find?_cons_of_neg _ hq]
        exact ih (fun x hx => h x (List.mem_cons_of_mem a hx))

theorem foldl_congr_mem {α β : Type} {f g : β → α → β} :
    ∀ (l : List α) (b : β), (∀ a ∈ l, ∀ x, f x a = g x a) → l.foldl f b = l.foldl g b := by
  intro l
  induction l with
  | nil => intro b _; rfl
  | cons a as ih =>
      intro b h
      rw [List.foldl_cons, List.foldl_cons, h a (List.mem_cons_self a as) b]
      exact ih _ (fun x hx y => h x (List.mem_cons_of_mem a hx) y)

theorem skipWs_cons_ws {c : Char} (h : wsChar c = true) (r : List Char) :
    skipWs (c :: r) = skipWs r := by
  simp [skipWs, List.dropWhile_cons, h]

theorem skipWs_cons_not {c : Char} (h : wsChar c = false) (r : List Char) :
    skipWs (c :: r) = c :: r := by
  simp [skipWs, List.dropWhile_cons, h]

theorem wsChar_eq_false_of_digit {c : Char} (h : isDigitChar c = true) : wsChar c = false := by
  have h1 : c ≠ ' ' := digit_ne h ' ' (by decide)
  have h2 : c ≠ nlChar := digit_ne h (nlChar) (by decide)
  have h3 : c ≠ tabChar := digit_ne h (tabChar) (by decide)
  have h4 : c ≠ crChar := digit_ne h (crChar) (by decide)
  simp [wsChar, h1, h2, h3, h4]

theorem skipWs_digit_head {c : Char} (h : isDigitChar c = true) (r : List Char) :
    skipWs (c :: r) = c :: r := skipWs_cons_not (wsChar_eq_false_of_digit h) r

theorem parseKeyStr_run {key : List Char} (hk : qChar ∉ key) (rest : List Char) :
    parseKeyStr (qChar :: (key ++ qChar :: rest)) = some (key, rest) := by
  have hu : ∀ x ∈ key, (fun y => !(y = qChar)) x = true := by
    intro x hx
    simp only [Bool.not_eq_true', decide_eq_false_iff_not]
    exact fun e => hk (e ▸ hx)
  have hc : (fun y => !(y = qChar)) (qChar) = false := by simp
  simp only [parseKeyStr, if_pos rfl, dropWhile_append_sat hu hc, takeWhile_append_sat hu hc]
  simp

theorem parseNum_natChars {c : Char} (hc : isDigitChar c = false) (n : Nat) (r : List Char) :
    parseNum (natChars n ++ c :: r) = some (n, c :: r) := by
  have hu : ∀ x ∈ natChars n, isDigitChar x = true := allDigits_natChars n
  rw [parseNum]
  rw [takeWhile_append_sat hu hc, dropWhile_append_sat hu hc]
  simp [List.isEmpty_iff, natChars_ne_nil n, atoiDigits_natChars_zero]

theorem quote_not_mem_intChars (z : Int) : qChar ∉ intChars z := by
  rw [intChars]
  split_ifs
  · intro hm
    rcases List.mem_cons.mp hm with h | h
    · exact absurd (congrArg Char.toNat h) (by decide)
    · exact not_mem_of_allDigits (allDigits_natChars _) (by decide) h
  · exact not_mem_of_allDigits (allDigits_natChars _) (by decide)

theorem quote_not_mem_toStringChars (b : BlockID) :
    qChar ∉ b.toStringChars := by
  rw [BlockID.toStringChars]
  intro hm
  rcases List.mem_append.mp hm with h | h
  · exact quote_not_mem_intChars b.id h
  · rcases List.mem_cons.mp h with h2 | h2
    · exact absurd (congrArg Char.toNat h2) (by decide)
    · exact quote_not_mem_intChars b.meta h2

theorem entriesText_length : ∀ (m : ColorMap), m.length ≤ (entriesText m).length := by
  intro m
  induction m with
  | nil => simp [entriesText]
  | cons p rest ih =>
      rw [entriesText]
      simp only [List.length_append, List.length_cons]
      omega

theorem skipWs_natChars (n : Nat) (x : List Char) :
    skipWs (natChars n ++ x) = natChars n ++ x := by
  obtain ⟨c, cs, heq, hd⟩ := natChars_head n
  rw [heq, List.cons_append, skipWs_digit_head hd]

theorem parseInnerPairs_run (f : Nat) (crc pix : Nat) (rest : List Char) :
    parseInnerPairs (f + 2)
        (qChar :: (crcKeyChars ++ qChar :: ':' :: (natChars crc ++
          ',' :: ' ' :: qChar :: (colorKeyChars ++ qChar :: ':' ::
            (natChars pix ++ rbChar :: rest)))))
      = some ([(crcKeyChars, Json.jnum (crc : Int)), (colorKeyChars, Json.jnum (pix : Int))],
          rest) := by
  have hq34 : wsChar (qChar) = false := by decide
  have hqcolon : wsChar ':' = false := by decide
  have hqcomma : wsChar ',' = false := by decide
  have hqrb : wsChar (rbChar) = false := by decide
  have hsp : wsChar ' ' = true := by decide
  have hkc : qChar ∉ crcKeyChars := by decide
  have hkco : qChar ∉ colorKeyChars := by decide
  simp only [parseInnerPairs, skipWs_cons_not hq34, skipWs_cons_not hqcolon,
    skipWs_cons_not hqcomma, skipWs_cons_not hqrb, skipWs_cons_ws hsp,
    skipWs_natChars, parseKeyStr_run hkc, parseKeyStr_run hkco,
    parseNum_natChars (show isDigitChar ',' = false by decide),
    parseNum_natChars (show isDigitChar (rbChar) = false by decide)]
  simp [show ¬(rbChar = ',') by decide]

theorem parseInnerPairs_ge (fuel : Nat) (h2 : 2 ≤ fuel) (crc pix : Nat) (rest : List Char) :
    parseInnerPairs fuel
        (qChar :: (crcKeyChars ++ qChar :: ':' :: (natChars crc ++
          ',' :: ' ' :: qChar :: (colorKeyChars ++ qChar :: ':' ::
            (natChars pix ++ rbChar :: rest)))))
      = some ([(crcKeyChars, Json.jnum (crc : Int)), (colorKeyChars, Json.jnum (pix : Int))],
          rest) := by
  obtain ⟨f2, rfl⟩ : ∃ f2, fuel = f2 + 2 := ⟨fuel - 2, by omega⟩
  exact parseInnerPairs_run f2 crc pix rest

theorem entriesText_cons_ne (p : BlockID × (SDL_Color × Nat)) {rest : ColorMap}
    (h : rest ≠ []) :
    entriesText (p :: rest) = entryText p.1 p.2 ++ ',' :: nlChar :: entriesText rest := by
  cases rest with
  | nil => exact absurd rfl h
  | cons q r2 => simp [entriesText]

theorem parseTopPairs_run : ∀ (m : ColorMap), m ≠ [] → ∀ (fuel : Nat), m.length + 1 ≤ fuel →
    parseTopPairs fuel (nlChar :: (entriesText m ++ [rbChar]))
      = some (cacheTree m, []) := by
  intro m
  induction m with
  | nil => intro h; exact absurd rfl h
  | cons p rest ih =>
      intro _ fuel hfuel
      have hflen : rest.length + 2 ≤ fuel := by
        simpa [List.length_cons] using hfuel
      obtain ⟨f, rfl⟩ : ∃ f, fuel = f + 1 := ⟨fuel - 1, by omega⟩
      have hnl : wsChar (nlChar) = true := by decide
      have htab : wsChar (tabChar) = true := by decide
      have hq34 : wsChar (qChar) = false := by decide
      have hcolon : wsChar ':' = false := by decide
      have hcomma : wsChar ',' = false := by decide
      have hlb : wsChar (lbChar) = false := by decide
      have hrb : wsChar (rbChar) = false := by decide
      have hkey := quote_not_mem_toStringChars p.1
      by_cases hrest : rest = []
      · subst hrest
        have hinner := parseInnerPairs_ge (f + 1) (by omega) p.2.2 (encodePixel p.2.1)
          (nlChar :: rbChar :: [])
        simp only [entriesText, List.isEmpty_nil, if_true, entryText, List.append_assoc,
          List.cons_append, List.nil_append, List.append_nil]
        simp only [parseTopPairs, skipWs_cons_ws hnl, skipWs_cons_ws htab,
          skipWs_cons_not hq34, parseKeyStr_run hkey, skipWs_cons_not hcolon,
          parseInnerObj, skipWs_cons_not hlb, hinner, skipWs_cons_not hrb,
          cacheTree, List.map_cons, List.map_nil]
        simp [skipWs_cons_ws hnl, skipWs_cons_not hrb, show ¬(qChar = rbChar) by decide,
          show ¬(rbChar = ',') by decide]
      · have hrec := ih hrest f (by omega)
        have hinner := parseInnerPairs_ge (f + 1) (by omega) p.2.2 (encodePixel p.2.1)
          (',' :: nlChar :: (entriesText rest ++ [rbChar]))
        simp only [entriesText_cons_ne p hrest, entryText, List.append_assoc,
          List.cons_append, List.nil_append]
        simp only [parseTopPairs, skipWs_cons_ws hnl, skipWs_cons_ws htab,
          skipWs_cons_not hq34, parseKeyStr_run hkey, skipWs_cons_not hcolon,
          parseInnerObj, skipWs_cons_not hlb, hinner, skipWs_cons_not hcomma, hrec,
          cacheTree, List.map_cons]
        simp [skipWs_cons_not hcomma, hrec, cacheTree, show ¬(qChar = rbChar) by decide]

theorem parseCache_save (m : ColorMap) :
    parseCache (saveNewJsonCache m) = some (Json.jobj (cacheTree m)) := by
  cases m with
  | nil => rfl
  | cons p rest =>
      have hlenb : (p :: rest).length + 1
          ≤ (lbChar :: nlChar :: (entriesText (p :: rest) ++ [rbChar])).length := by
        have h0 := entriesText_length (p :: rest)
        simp only [List.length_cons] at h0
        simp only [List.length_cons, List.length_append, List.length_singleton]
        omega
      have htop := parseTopPairs_run (p :: rest) (by simp)
        ((lbChar :: nlChar :: (entriesText (p :: rest) ++ [rbChar])).length) hlenb
      have hnl : wsChar nlChar = true := by decide
      have htab : wsChar tabChar = true := by decide
      have hq34 : wsChar qChar = false := by decide
      have hlb : wsChar lbChar = false := by decide
      show parseCache (lbChar :: nlChar :: (entriesText (p :: rest) ++ [rbChar]))
        = some (Json.jobj (cacheTree (p :: rest)))
      simp only [entriesText, entryText, List.cons_append, List.append_assoc,
        List.nil_append] at htop ⊢
      simp only [parseCache, skipWs_cons_not hlb, skipWs_cons_ws hnl, skipWs_cons_ws htab,
        skipWs_cons_not hq34, htop]
      simp [show ¬(qChar = rbChar) by decide, skipWs]

theorem keys_fold_subset (compute : ZipEntry → SDL_Color) (cache : Json) :
    ∀ (l : List ZipEntry) (m0 : ColorMap) (k : BlockID),
      k ∈ keysOf (l.foldl (colorStep compute cache) m0) →
        (∃ e ∈ l, entryKey e = k) ∨ k ∈ keysOf m0 := by
  intro l
  induction l with
  | nil => intro m0 k h; exact Or.inr h
  | cons e restl ih =>
      intro m0 k h
      rw [List.foldl_cons] at h
      rcases ih _ k h with h2 | h2
      · obtain ⟨e2, he2, hk2⟩ := h2
        exact Or.inl ⟨e2, List.mem_cons_of_mem e he2, hk2⟩
      · obtain ⟨q, hq, hq2⟩ := List.mem_map.mp h2
        rcases keys_mapInsert_subset m0 (entryKey e) _ q hq with h3 | h3
        · exact Or.inl ⟨e, List.mem_cons_self e restl, by rw [← h3, hq2]⟩
        · exact Or.inr (by rw [← hq2]; exact h3)

theorem find?_decide_of_mapLookup {m : ColorMap} {j : BlockID} {v : SDL_Color × Nat}
    (h : mapLookup m j = some v) :
    ∃ q, m.find? (fun p => decide (p.1 = j)) = some q ∧ q.1 = j ∧ q.2 = v := by
  have hc : m.find? (fun p => bidEquiv p.1 j) = m.find? (fun p => decide (p.1 = j)) :=
    find?_congr_mem m (fun x _ => bidEquiv_eq_decide x.1 j)
  rw [mapLookup, hc] at h
  obtain ⟨q, hq1, hq2⟩ := Option.map_eq_some'.mp h
  have hk := List.find?_some hq1
  exact ⟨q, hq1, of_decide_eq_true hk, hq2⟩

theorem jget_inner_crc (x y : Json) :
    (Json.jobj [(crcKeyChars, x), (colorKeyChars, y)]).get crcKeyChars = x := by
  simp [Json.get, List.find?]

theorem jget_inner_color (x y : Json) :
    (Json.jobj [(crcKeyChars, x), (colorKeyChars, y)]).get colorKeyChars = y := by
  simp [Json.get, List.find?, show ¬(crcKeyChars = colorKeyChars) by decide]

/-- C3 amended: for an archive whose entries' stripped names are canonical
`"<id>-<meta>"` strings deriving pairwise-distinct `BlockID`s, reloading
with the cache state left by the first load (the written cache file parsed
back, or the unchanged original cache when nothing was written) performs
zero recomputation: no entry is flagged dirty, no cache write occurs, the
in-memory map is unchanged, and re-serializing it is byte-identical to the
first load's cache file. -/
theorem c3_second_load_idempotent (compute : ZipEntry → SDL_Color) (cache : Json)
    (entries : List ZipEntry)
    (hcanon : ∀ e ∈ entries, canonicalName (stripExt e.name))
    (hnodup : (entries.map entryKey).Nodup) :
    (BlockColors.load compute
        (cacheAfter cache (BlockColors.load compute cache entries)) entries).dirty = false ∧
      (BlockColors.load compute
        (cacheAfter cache (BlockColors.load compute cache entries)) entries).written = none ∧
      (BlockColors.load compute
        (cacheAfter cache (BlockColors.load compute cache entries)) entries).colors
        = (BlockColors.load compute cache entries).colors ∧
      saveNewJsonCache (BlockColors.load compute
        (cacheAfter cache (BlockColors.load compute cache entries)) entries).colors
        = saveNewJsonCache (BlockColors.load compute cache entries).colors := by
  obtain ⟨hcolors, hdirty, hwritten⟩ := load_parts compute cache entries
  by_cases hd : (BlockColors.load compute cache entries).dirty = true
  · have hany : entries.any (entryMiss cache) = true := by rw [← hdirty]; exact hd
    have hwr : (BlockColors.load compute cache entries).written
        = some (saveNewJsonCache (entries.foldl (colorStep compute cache) [])) := by
      rw [hwritten, hany]
      simp
    have hca : cacheAfter cache (BlockColors.load compute cache entries)
        = Json.jobj (cacheTree (entries.foldl (colorStep compute cache) [])) := by
      simp [cacheAfter, hwr, parseCache_save]
    have hFlook : ∀ e ∈ entries,
        mapLookup (entries.foldl (colorStep compute cache) []) (entryKey e)
          = some (entryValue compute cache e) := by
      intro e he
      rw [mapLookup_fold]
      have hsome : (entries.reverse.find?
          (fun e2 => decide (entryKey e2 = entryKey e))).isSome := by
        rw [List.find?_isSome]
        exact ⟨e, List.mem_reverse.mpr he, by simp⟩
      cases hfind : entries.reverse.find? (fun e2 => decide (entryKey e2 = entryKey e)) with
      | none => rw [hfind] at hsome; simp at hsome
      | some x =>
          have hx1 : x ∈ entries := List.mem_reverse.mp (List.mem_of_find?_eq_some hfind)
          have hx2 : entryKey x = entryKey e := by
            have hx0 := List.find?_some hfind
            simpa using hx0
          have hxe : x = e := List.inj_on_of_nodup_map hnodup hx1 he hx2
          simp only [hfind]
          rw [hxe]
    have hkeyinj : ∀ k ∈ keysOf (entries.foldl (colorStep compute cache) []),
        ∀ e ∈ entries, k.toStringChars = (entryKey e).toStringChars → k = entryKey e := by
      intro k hk e he hstr
      rcases keys_fold_subset compute cache entries [] k hk with ⟨e2, he2, hke2⟩ | h0
      · subst hke2
        have c2 := hcanon e2 he2
        have c1 := hcanon e he
        rw [canonicalName] at c1 c2
        have h1 : stripExt e2.name = stripExt e.name := by
          rw [← c2, ← c1]
          exact hstr
        rw [entryKey, entryKey, h1]
      · simp [keysOf] at h0
    have hget : ∀ e ∈ entries,
        (Json.jobj (cacheTree (entries.foldl (colorStep compute cache) []))).get
            (stripExt e.name)
          = Json.jobj [(crcKeyChars, Json.jnum ((entryValue compute cache e).2 : Int)),
              (colorKeyChars,
                Json.jnum ((encodePixel (entryValue compute cache e).1) : Int))] := by
      intro e he
      have hname : stripExt e.name = (entryKey e).toStringChars := (hcanon e he).symm
      rw [hname]
      have hmapfind : (cacheTree (entries.foldl (colorStep compute cache) [])).find?
            (fun pr => decide (pr.1 = (entryKey e).toStringChars))
          = ((entries.foldl (colorStep compute cache) []).find?
              (fun p => decide (p.1 = entryKey e))).map
              (fun p => (p.1.toStringChars,
                Json.jobj [(crcKeyChars, Json.jnum (p.2.2 : Int)),
                  (colorKeyChars, Json.jnum (encodePixel p.2.1 : Int))])) := by
        rw [cacheTree, List.find?_map]
        congr 1
        apply find?_congr_mem
        intro p hp
        simp only [Function.comp_apply]
        rw [decide_eq_decide]
        constructor
        · intro hstr
          exact hkeyinj p.1 (mem_keysOf_of_mem hp) e he hstr
        · intro heq
          rw [heq]
      obtain ⟨q, hq1, hq2, hq3⟩ := find?_decide_of_mapLookup (hFlook e he)
      simp only [Json.get, hmapfind, hq1, Option.map_some', hq2, hq3]
    have hhit : ∀ e ∈ entries,
        hitPixel (Json.jobj (cacheTree (entries.foldl (colorStep compute cache) [])))
            (stripExt e.name) e.crc
          = some (encodePixel (entryValue compute cache e).1) := by
      intro e he
      have hv2 : (entryValue compute cache e).2 = e.crc := rfl
      simp only [hitPixel, hget e he, jget_inner_crc, jget_inner_color, Json.isObj,
        Json.numberValue, hv2]
      simp
    have hvals : ∀ e ∈ entries,
        entryValue compute
            (Json.jobj (cacheTree (entries.foldl (colorStep compute cache) []))) e
          = entryValue compute cache e := by
      intro e he
      have hL : entryValue compute
          (Json.jobj (cacheTree (entries.foldl (colorStep compute cache) []))) e
          = (decodePixel (encodePixel (entryValue compute cache e).1), e.crc) := by
        unfold entryValue
        rw [hhit e he]
        rfl
      rw [hL, decodePixel_encodePixel]
      rfl
    obtain ⟨hcolors2, hdirty2, hwritten2⟩ := load_parts compute
      (Json.jobj (cacheTree (entries.foldl (colorStep compute cache) []))) entries
    have hmiss2 : entries.any (entryMiss
        (Json.jobj (cacheTree (entries.foldl (colorStep compute cache) [])))) = false := by
      rw [List.any_eq_false]
      intro e he
      simp [entryMiss, hhit e he]
    have hcoleq : (BlockColors.load compute
        (Json.jobj (cacheTree (entries.foldl (colorStep compute cache) []))) entries).colors
        = entries.foldl (colorStep compute cache) [] := by
      rw [hcolors2]
      apply foldl_congr_mem
      intro e he x
      rw [colorStep, colorStep, hvals e he]
    rw [hca]
    refine ⟨?_, ?_, ?_, ?_⟩
    · rw [hdirty2, hmiss2]
    · rw [hwritten2, hmiss2]
      simp
    · rw [hcoleq, hcolors]
    · rw [hcoleq, hcolors]
  · have hd2 : (BlockColors.load compute cache entries).dirty = false := by
      simpa using hd
    have hany : entries.any (entryMiss cache) = false := by rw [← hdirty]; exact hd2
    have hwr : (BlockColors.load compute cache entries).written = none := by
      rw [hwritten, hany]
      simp
    have hca : cacheAfter cache (BlockColors.load compute cache entries) = cache := by
      simp [cacheAfter, hwr]
    rw [hca]
    exact ⟨hd2, hwr, rfl, rfl⟩

/-- Witness for the amended C3 theorem on a concrete single-entry archive
with a canonical name. -/
theorem c3_second_load_idempotent_witness :
    (∀ e ∈ [c3goodEntry], canonicalName (stripExt e.name)) ∧
      ([c3goodEntry].map entryKey).Nodup ∧
      ((BlockColors.load constColor1
          (cacheAfter Json.jnull (BlockColors.load constColor1 Json.jnull [c3goodEntry]))
          [c3goodEntry]).dirty = false ∧
        (BlockColors.load constColor1
          (cacheAfter Json.jnull (BlockColors.load constColor1 Json.jnull [c3goodEntry]))
          [c3goodEntry]).written = none ∧
        (BlockColors.load constColor1
          (cacheAfter Json.jnull (BlockColors.load constColor1 Json.jnull [c3goodEntry]))
          [c3goodEntry]).colors
          = (BlockColors.load constColor1 Json.jnull [c3goodEntry]).colors ∧
        saveNewJsonCache (BlockColors.load constColor1
          (cacheAfter Json.jnull (BlockColors.load constColor1 Json.jnull [c3goodEntry]))
          [c3goodEntry]).colors
          = saveNewJsonCache (BlockColors.load constColor1 Json.jnull [c3goodEntry]).colors) :=
  ⟨by
      intro e he
      rw [List.mem_singleton] at he
      subst he
      exact (by decide : (BlockID.ofString (stripExt c3goodEntry.name)).toStringChars
        = stripExt c3goodEntry.name),
    by decide,
    c3_second_load_idempotent constColor1 Json.jnull [c3goodEntry]
      (by
        intro e he
        rw [List.mem_singleton] at he
        subst he
        exact (by decide : (BlockID.ofString (stripExt c3goodEntry.name)).toStringChars
          = stripExt c3goodEntry.name))
      (by decide)⟩

/-- C3 counterexample: for the archive containing only `stone.png`, the
first load writes a cache keyed `"0-0"` (the `BlockID` string of the
parsed name), but the second load looks the entry up under `"stone"`, so
it misses again and the dirty flag is raised — the claim's "zero
recomputation on the second load" is false for this archive. -/
theorem c3_counterexample :
    (BlockColors.load constColor1 Json.jnull [c3entry]).written.isSome = true ∧
      (BlockColors.load constColor1
          (cacheAfter Json.jnull (BlockColors.load constColor1 Json.jnull [c3entry]))
          [c3entry]).dirty = true := by
  refine ⟨by decide, by decide⟩
